import Mathlib

/-!
Verification of the rule-driven PDF-outline extraction pipeline
(`src/preprocessing.py`, `src/rules.py`, `src/model.py`, `src/run.py`,
`src/linker.py`): fragment merging, heading scoring, heading
classification, baseline estimation, title selection and hierarchy
building.

Modelling conventions (shallow embedding):
* Python floats are modelled as rationals (`ℚ`); the float literals
  `1.8`, `1.3`, `1.1`, `0.9` become the exact rationals they denote in
  the source text.
* Python lists are `List`; Python dicts preserve insertion order and are
  modelled as ordered association lists.
* Python's stable `sorted`/`list.sort` is modelled by a stable insertion
  sort: a stable sort over a total transitive comparison is unique as a
  function, so any stable algorithm is a faithful model.
* Character classes (`str.isupper`, `str.split`, `\d`, `\s`, `[A-Z]`)
  are modelled over the ASCII range, which covers every string the
  theorems below evaluate.
* Arithmetic on ℚ is expressed through `qmul`/`qdiv`/`qsub` below, which
  are kernel-computable; they are proved equal to `*`, `/`, `-`.
-/

/-- Kernel-computable multiplication on `ℚ` (equal to `*`, see `qmul_eq`). -/
def qmul (a b : ℚ) : ℚ := Rat.divInt (a.num * b.num) ((a.den : ℤ) * (b.den : ℤ))

/-- Kernel-computable division on `ℚ` (equal to `/`, see `qdiv_eq`). -/
def qdiv (a b : ℚ) : ℚ := Rat.divInt (a.num * (b.den : ℤ)) ((a.den : ℤ) * b.num)

/-- Kernel-computable subtraction on `ℚ` (equal to `-`, see `qsub_eq`). -/
def qsub (a b : ℚ) : ℚ :=
  Rat.divInt (a.num * (b.den : ℤ) - b.num * (a.den : ℤ)) ((a.den : ℤ) * (b.den : ℤ))

/-- Round-half-to-even, the semantics of Python's builtin `round` on a
single argument, modelled on rationals. -/
def pyRound (q : ℚ) : ℤ :=
  let f : ℤ := q.floor
  let r : ℚ := qsub q (Rat.divInt f 1)
  if r < mkRat 1 2 then f
  else if mkRat 1 2 < r then f + 1
  else if f % 2 = 0 then f else f + 1

/-- `len(s)` for a Python `str`: number of characters. -/
def pyLen (s : String) : Nat := s.data.length

/-- Truthiness of `s.strip()`: the string has a non-whitespace character. -/
def hasContent (s : String) : Bool :=
  s.data.any (fun c => !c.isWhitespace)

/-- `len(s.split())`: the number of maximal non-whitespace runs. -/
def wordCount (s : String) : Nat :=
  go s.data false 0
where
  go : List Char → Bool → Nat → Nat
    | [], _, n => n
    | c :: rest, inWord, n =>
      if c.isWhitespace then go rest false n
      else go rest true (if inWord then n else n + 1)

/-- `s.isupper()`: at least one cased character, and every cased character
is upper case (cased ≈ ASCII letter in this model). -/
def pyIsUpper (s : String) : Bool :=
  s.data.any (fun c => c.isAlpha) && s.data.all (fun c => !c.isAlpha || c.isUpper)

/-- `s.endswith('.')`. -/
def endsWithDot (s : String) : Bool :=
  match s.data.getLast? with
  | some c => c = '.'
  | none => false

/-- `" ".join(ts)`. -/
def joinWithSpace (ts : List String) : String :=
  String.mk (List.intercalate [' '] (ts.map String.data))

/-- Contiguous-sublist test on character lists (helper for `isSubstr`). -/
def listInfixCheck (sub : List Char) : List Char → Bool
  | [] => sub.isEmpty
  | c :: rest => sub.isPrefixOf (c :: rest) || listInfixCheck sub rest

/-- Python's `sub in sup` on strings: contiguous-substring test
(`True` also when the strings are equal, as in Python). -/
def isSubstr (sub sup : String) : Bool :=
  listInfixCheck sub.data sup.data

/-- Scanner for the tail of the numeric branch `\d+(\.\d+)*\s` of the
numbering pattern, entered right after the first digit.  The flag records
that the previous character was a group-opening `'.'` (which the pattern
only accepts when a digit follows).  Greedy one-pass scanning is
equivalent to the regex's backtracking semantics here: every backtracking
stop position sits right after a digit run, and the character there is
either `'.'` (never `\s`) or exactly the character this scan tests with
`\s`. -/
def numScan : Bool → List Char → Bool
  | _, [] => false
  | afterDot, c :: rest =>
    if afterDot then c.isDigit && numScan false rest
    else if c.isDigit then numScan false rest
    else if c = '.' then numScan true rest
    else c.isWhitespace

/-- `re.match(r"^((\d+(\.\d+)*)|([A-Z]\.))\s", text)` from
`calculate_heading_score` (rules.py, Rule 4), over ASCII text:
either a digit run followed by dot-digit-run groups and then whitespace,
or a single `A`–`Z` capital, a dot, and whitespace. -/
def numberingMatch (s : String) : Bool :=
  numericBranch s.data || alphaBranch s.data
where
  numericBranch : List Char → Bool
    | [] => false
    | c :: rest => c.isDigit && numScan false rest
  alphaBranch : List Char → Bool
    | c0 :: '.' :: c2 :: _ => ('A' ≤ c0 && c0 ≤ 'Z') && c2.isWhitespace
    | _ => false

/-- `RichTextBlock` (preprocessing.py): a text block with visual and
positional attributes.  `bbox = (x0, y0, x1, y1)`. -/
structure RichTextBlock where
  text : String
  x0 : ℚ
  y0 : ℚ
  x1 : ℚ
  y1 : ℚ
  font_size : ℚ
  font_name : String
  is_bold : Bool
  is_italic : Bool
  page_num : Nat
  block_id : Nat
deriving DecidableEq, Repr

/-- `calculate_heading_score` (rules.py): sum of six weighted signals.
The float literals `1.8`, `1.3`, `1.1` are the exact rationals written in
the source. -/
def calculate_heading_score (block : RichTextBlock) (body_font_size : ℚ) : Nat :=
  let font_size := block.font_size
  let rule1 : Nat :=
    if qmul (mkRat 18 10) body_font_size < font_size then 5
    else if qmul (mkRat 13 10) body_font_size < font_size ∧
        font_size ≤ qmul (mkRat 18 10) body_font_size then 3
    else if qmul (mkRat 11 10) body_font_size < font_size ∧
        font_size ≤ qmul (mkRat 13 10) body_font_size then 2
    else 0
  let rule2 : Nat := if block.is_bold then 3 else 0
  let rule3 : Nat := if pyIsUpper block.text ∧ 1 < wordCount block.text then 2 else 0
  let rule4 : Nat := if numberingMatch block.text then 5 else 0
  let rule5 : Nat := if wordCount block.text < 10 then 1 else 0
  let rule6 : Nat := if ¬ endsWithDot block.text then 1 else 0
  rule1 + rule2 + rule3 + rule4 + rule5 + rule6

/-! ### A stable sort, modelling Python's `sorted`/`list.sort`

Python's sort is specified by: output sorted by the key, equal keys kept
in input order.  Over a total, transitive comparison that is a function
of the key alone this determines the output uniquely
(`sortedK_filters_unique`), so the insertion sort below is a faithful
model of CPython's timsort as a function. -/


section StableSort

variable {α : Type} {κ : Type} [DecidableEq κ] (k : α → κ) (kle : κ → κ → Bool)

/-- Insert `x` after every element whose key compares `≤` to `x`'s key
(so after equal keys: stability). -/
def insertS (x : α) : List α → List α
  | [] => [x]
  | y :: ys => if kle (k y) (k x) then y :: insertS x ys else x :: y :: ys

/-- Stable sort by insertion, processing the input left to right. -/
def pySortK (l : List α) : List α :=
  l.foldl (fun acc x => insertS k kle x acc) []

/-- Sortedness with respect to the key comparison. -/
def SortedK (l : List α) : Prop :=
  List.Pairwise (fun a b => kle (k a) (k b) = true) l

end StableSort

/-! ### Fragment merger (`post_process_blocks`, preprocessing.py) -/

/-- The per-block filter at the top of `post_process_blocks`: skip blocks
with blank text or the `"[EMPTY]"` OCR sentinel (the `isinstance` guard is
vacuous in a typed model). -/
def keepBlock (b : RichTextBlock) : Bool :=
  hasContent b.text && b.text ≠ "[EMPTY]"

/-- `(block.page_num, round(block.bbox[1] / y_tolerance))` with
`y_tolerance = 5`: the line-grouping key. -/
def lineKey (b : RichTextBlock) : Nat × ℤ :=
  (b.page_num, pyRound (qdiv b.y0 5))

/-- Append `b` to the group with key `key`, or open a new group at the
end: the behaviour of `defaultdict(list)` under insertion-ordered
iteration. -/
def addToGroups (key : Nat × ℤ) (b : RichTextBlock) :
    List ((Nat × ℤ) × List RichTextBlock) → List ((Nat × ℤ) × List RichTextBlock)
  | [] => [(key, [b])]
  | (k', bs) :: rest =>
    if k' = key then (k', bs ++ [b]) :: rest
    else (k', bs) :: addToGroups key b rest

/-- The `line_groups` loop of `post_process_blocks`. -/
def groupBlocks (blocks : List RichTextBlock) : List ((Nat × ℤ) × List RichTextBlock) :=
  blocks.foldl (fun gs b => if keepBlock b then addToGroups (lineKey b) b gs else gs) []

/-- `≤` on ℚ as a Bool comparison (for sorting groups by `bbox[0]`). -/
def qle (v w : ℚ) : Bool := decide (v ≤ w)

/-- Python's `max(xs, key=f)` for a non-empty list `x :: xs`: the first
element attaining the maximum key (later elements replace the current
best only when strictly greater). -/
def maxByFirst {α κ : Type} [LinearOrder κ] (f : α → κ) (x : α) (xs : List α) : α :=
  xs.foldl (fun best c => if f best < f c then c else best) x

/-- Python's `min(xs)` for a non-empty ℚ list `x :: xs`. -/
def minQ (x : ℚ) (xs : List ℚ) : ℚ := xs.foldl min x

/-- Python's `max(xs)` for a non-empty ℚ list `x :: xs`. -/
def maxQ (x : ℚ) (xs : List ℚ) : ℚ := xs.foldl max x

/-- `full_text` of a sorted line group: the non-blank member texts joined
with single spaces. -/
def mergedText (s0 : RichTextBlock) (srest : List RichTextBlock) : String :=
  joinWithSpace (((s0 :: srest).filter (fun b => hasContent b.text)).map RichTextBlock.text)

/-- The merged block of a sorted line group: joined text, bounding-box
union, and the typographic attributes of the first member with the
largest `font_size` (Python's `max(group, key=...)`). -/
def mergedBlock (s0 : RichTextBlock) (srest : List RichTextBlock) : RichTextBlock :=
  { text := mergedText s0 srest,
    x0 := minQ s0.x0 (srest.map RichTextBlock.x0),
    y0 := minQ s0.y0 (srest.map RichTextBlock.y0),
    x1 := maxQ s0.x1 (srest.map RichTextBlock.x1),
    y1 := maxQ s0.y1 (srest.map RichTextBlock.y1),
    font_size := (maxByFirst RichTextBlock.font_size s0 srest).font_size,
    font_name := (maxByFirst RichTextBlock.font_size s0 srest).font_name,
    is_bold := (maxByFirst RichTextBlock.font_size s0 srest).is_bold,
    is_italic := (maxByFirst RichTextBlock.font_size s0 srest).is_italic,
    page_num := (maxByFirst RichTextBlock.font_size s0 srest).page_num,
    block_id := (maxByFirst RichTextBlock.font_size s0 srest).block_id }

/-- The per-group merge step of `post_process_blocks`: sort the group by
`bbox[0]` (stable, in place), join the non-blank texts with single
spaces, skip the group if the joined text is blank, take the bounding-box
union, and copy the typographic attributes from the first group member
with the largest `font_size`. -/
def mergeGroup (g : List RichTextBlock) : Option RichTextBlock :=
  match pySortK (fun b => b.x0) qle g with
  | [] => none
  | s0 :: srest =>
    if hasContent (mergedText s0 srest) then some (mergedBlock s0 srest) else none

/-- The substring de-duplication loop: drop a block whose text occurs
inside the text of an already accepted block on the same page
(`seen_on_page` is exactly the accepted blocks' texts per page). -/
def dedupGo (acc : List RichTextBlock) : List RichTextBlock → List RichTextBlock
  | [] => acc
  | b :: bs =>
    if acc.any (fun a => a.page_num == b.page_num && isSubstr b.text a.text)
    then dedupGo acc bs
    else dedupGo (acc ++ [b]) bs

/-- Sort key `(b.page_num, -len(b.text))` for the de-duplication pass
(the length is stored positively; `kle2` orders it descending). -/
def key2 (b : RichTextBlock) : Nat × Nat := (b.page_num, pyLen b.text)

/-- Lexicographic comparison for `(page, -len)`. -/
def kle2 (v w : Nat × Nat) : Bool :=
  decide (v.1 < w.1) || (decide (v.1 = w.1) && decide (w.2 ≤ v.2))

/-- Sort key `(b.page_num, b.bbox[1], b.bbox[0])` for the final
reading-order sort. -/
def key1 (b : RichTextBlock) : Nat × ℚ × ℚ := (b.page_num, b.y0, b.x0)

/-- Lexicographic comparison for `(page, y0, x0)`. -/
def kle1 (v w : Nat × ℚ × ℚ) : Bool :=
  decide (v.1 < w.1) ||
    (decide (v.1 = w.1) &&
      (decide (v.2.1 < w.2.1) ||
        (decide (v.2.1 = w.2.1) && decide (v.2.2 ≤ w.2.2))))

/-- `post_process_blocks` (preprocessing.py): group blocks by page and
rounded line position, merge each line group, de-duplicate substrings per
page, and return the blocks in `(page, y0, x0)` order. -/
def post_process_blocks (blocks : List RichTextBlock) : List RichTextBlock :=
  if blocks.isEmpty then []
  else
    let merged := (groupBlocks blocks).filterMap (fun kg => mergeGroup kg.2)
    let sorted_for_dedup := pySortK key2 kle2 merged
    let final_blocks := dedupGo [] sorted_for_dedup
    pySortK key1 kle1 final_blocks

/-- Well-formedness of the `line_groups` association list: every group is
non-empty, holds only kept blocks whose line key is the group key, and
the keys are distinct. -/
def GroupsOk (gs : List ((Nat × ℤ) × List RichTextBlock)) : Prop :=
  (∀ p ∈ gs, p.2 ≠ [] ∧ ∀ b ∈ p.2, lineKey b = p.1 ∧ keepBlock b = true) ∧
    (gs.map Prod.fst).Nodup

/-- The merged blocks of the line groups (the `merged_blocks` list). -/
def mergedOf (blocks : List RichTextBlock) : List RichTextBlock :=
  (groupBlocks blocks).filterMap (fun kg => mergeGroup kg.2)

/-- Blocks on a common page with neither text a substring of the other
(the invariant established by the de-duplication pass; substring here
includes equality, as Python's `in` does). -/
def NoMutualSub (a b : RichTextBlock) : Prop :=
  a.page_num = b.page_num →
    isSubstr a.text b.text = false ∧ isSubstr b.text a.text = false

/-- One text is a strict substring of another: a proper contiguous part. -/
def StrictSubstring (a b : String) : Prop :=
  a ≠ b ∧ a.data <:+: b.data

/-! ### Heading classifier (model.py, rule-based path) -/

/-- `ClassifiedHeading` (model.py): a block classified as a heading. -/
structure ClassifiedHeading where
  id : Nat
  label : String
  parent_id : Nat
  order : Nat
  confidence : ℚ
  text : String
  gt_text : String
  box : ℚ × ℚ × ℚ × ℚ
  page : Nat
  heading_level : String
deriving DecidableEq, Repr

def H1_THRESHOLD : Nat := 10
def H2_THRESHOLD : Nat := 7
def H3_THRESHOLD : Nat := 4

/-- `get_heading_level_rule_based` (model.py): map a score to H1/H2/H3 or
no heading. -/
def get_heading_level_rule_based (block : RichTextBlock) (body_font_size : ℚ) :
    Option Nat :=
  let score := calculate_heading_score block body_font_size
  if H1_THRESHOLD ≤ score then some 1
  else if H2_THRESHOLD ≤ score then some 2
  else if H3_THRESHOLD ≤ score then some 3
  else none

/-- The `ClassifiedHeading` record built inside `classify_blocks` for the
block at position `i` classified at `level`.  `confidence = 0.9`,
`order = level - 1`. -/
def mkClassifiedHeading (i : Nat) (block : RichTextBlock) (level : Nat) :
    ClassifiedHeading :=
  { id := i + 1,
    label := if 1 < level then "section-title" else "title",
    parent_id := 0,
    order := level - 1,
    confidence := mkRat 9 10,
    text := block.text,
    gt_text := "",
    box := (block.x0, block.y0, block.x1, block.y1),
    page := block.page_num,
    heading_level := "h" ++ toString level }

/-- `classify_blocks` (model.py) in rule-based mode (`use_bert=False`):
skip header/footer-zone blocks (`bbox[2] < 50 or bbox[3] > 742`), then
emit a `ClassifiedHeading` for each block that
`get_heading_level_rule_based` accepts.  The `use_bert=True` branch
delegates to the external ML collaborator and is out of scope
(spec §1, §6). -/
def classify_blocks (blocks : List RichTextBlock) (body_font_size : ℚ) :
    List ClassifiedHeading :=
  blocks.enum.filterMap (fun p =>
    if p.2.x1 < 50 ∨ 742 < p.2.y1 then none
    else (get_heading_level_rule_based p.2 body_font_size).map
      (mkClassifiedHeading p.1 p.2))

/-! ### Baseline estimator (`get_document_baseline_font_size`, preprocessing.py) -/

/-- One insertion into a `collections.Counter` modelled as an
insertion-ordered association list: bump the existing entry or append a
new one. -/
def counterBump : List (ℚ × Nat) → ℚ → List (ℚ × Nat)
  | [], x => [(x, 1)]
  | (k, c) :: rest, x =>
    if k = x then (k, c + 1) :: rest else (k, c) :: counterBump rest x

/-- `Counter(xs)`: counts with keys in first-occurrence order. -/
def counterItems (xs : List ℚ) : List (ℚ × Nat) := xs.foldl counterBump []

/-- `Counter.most_common(1)`: the item with the largest count;
`heapq.nlargest` is stable, so ties go to the first-seen key. -/
def mostCommon1 (items : List (ℚ × Nat)) : Option (ℚ × Nat) :=
  match items with
  | [] => none
  | p :: ps => some (maxByFirst Prod.snd p ps)

/-- `get_document_baseline_font_size` (preprocessing.py): the most common
font size among non-bold blocks of fewer than 50 words, falling back to
all blocks, then to 12.0. -/
def get_document_baseline_font_size (blocks : List RichTextBlock) : ℚ :=
  if blocks.isEmpty then 12
  else
    let font_sizes :=
      (blocks.filter (fun b => !b.is_bold && decide (wordCount b.text < 50))).map
        RichTextBlock.font_size
    let font_sizes2 :=
      if font_sizes.isEmpty then blocks.map RichTextBlock.font_size else font_sizes
    if font_sizes2.isEmpty then 12
    else
      match mostCommon1 (counterItems font_sizes2) with
      | some p => p.1
      | none => 12

/-- Modelled from the spec's words, for comparison with the code (C8):
"the most frequent fontSize …; ties in frequency resolve to the smallest
size value".  Used only to exhibit where the code's first-seen tie-break
differs. -/
def baseline_spec_smallest_tie (blocks : List RichTextBlock) : ℚ :=
  if blocks.isEmpty then 12
  else
    let font_sizes :=
      (blocks.filter (fun b => !b.is_bold && decide (wordCount b.text < 50))).map
        RichTextBlock.font_size
    let font_sizes2 :=
      if font_sizes.isEmpty then blocks.map RichTextBlock.font_size else font_sizes
    match font_sizes2.filter
        (fun v => font_sizes2.all (fun w => font_sizes2.count w ≤ font_sizes2.count v)) with
    | [] => 12
    | c :: cs => minQ c cs

/-! ### Title selector (`find_document_title`, run.py) -/

/-- The dict comprehension `{b.text: b for b in blocks}`: later blocks
overwrite earlier ones, so lookup returns the last block with the given
text. -/
def lastWithText (blocks : List RichTextBlock) (t : String) : Option RichTextBlock :=
  blocks.foldl (fun acc b => if b.text = t then some b else acc) none

/-- The `key=lambda h: block_map[h.text].font_size` of the title max
(total-ised with a default that valid candidates never hit). -/
def titleKey (blocks : List RichTextBlock) (h : ClassifiedHeading) : ℚ :=
  ((lastWithText blocks h.text).map RichTextBlock.font_size).getD 0

/-- `find_document_title` (run.py): prefer the page-0 H1 whose looked-up
block has the largest font size; fall back to the largest-font block
among the first ten page-0 blocks, then to the first non-blank block,
then to `"Untitled Document"`.  Early returns become `Option` fall-through. -/
def find_document_title (blocks : List RichTextBlock)
    (headings : List ClassifiedHeading) : String :=
  if blocks.isEmpty then "Untitled Document"
  else
    match (if (headings.filter (fun h => h.heading_level == "h1" && h.page == 0)).isEmpty
           then none
           else
             match (headings.filter (fun h => h.heading_level == "h1" && h.page == 0)).filter
                 (fun h => (lastWithText blocks h.text).isSome) with
             | [] => (none : Option String)
             | v :: vs => some (maxByFirst (titleKey blocks) v vs).text) with
    | some t => t
    | none =>
      match (match (blocks.filter (fun b => b.page_num == 0)).take 10 with
             | [] => (none : Option String)
             | x :: xs =>
               if hasContent (maxByFirst RichTextBlock.font_size x xs).text &&
                   (maxByFirst RichTextBlock.font_size x xs).text ≠ "[EMPTY]" then
                 some (maxByFirst RichTextBlock.font_size x xs).text
               else none) with
      | some t => t
      | none =>
        match blocks.find? (fun b => hasContent b.text && b.text ≠ "[EMPTY]") with
        | some b => b.text
        | none => "Untitled Document"

/-- Concrete block for exercising the amended title theorem. -/
def c9Block : RichTextBlock :=
  { text := "X", x0 := 60, y0 := 100, x1 := 300, y1 := 112, font_size := 10,
    font_name := "f", is_bold := false, is_italic := false, page_num := 0, block_id := 0 }

/-- Concrete page-0 H1 heading whose text matches `c9Block`. -/
def c9Heading : ClassifiedHeading :=
  { id := 1, label := "title", parent_id := 0, order := 0, confidence := mkRat 9 10,
    text := "X", gt_text := "", box := (0, 0, 0, 0), page := 0, heading_level := "h1" }

/-! ### Hierarchy builder (`build_hierarchy`, linker.py)

The Python code keeps a stack of mutable dicts: a new heading node is
appended to the top-of-stack parent's `outline` list and pushed; popping
merely drops the stack reference, the node staying linked in its parent.
Functionally we let every stack entry own its children and attach a
frame's finished node to the entry below it at pop time; since a later
sibling forces the earlier one to pop first, children are attached in
insertion order, which is exactly the order of the in-place appends.  The
frames still on the stack when the heading list is exhausted are already
linked in the Python tree, so the translation collapses them into the
root at the end (`collapseAll`).  The `level_val` key that
`cleanup_keys` deletes lives only in the stack entry, never in the
returned `OutlineNode`.  The pop loop reads `stack[-1]` immediately
after popping, so popping the last entry is an `IndexError`; the
translation returns `none` there. -/

inductive OutlineNode where
| mk (level : String) (text : String) (page : Nat) (outline : List OutlineNode) : OutlineNode

/-- The returned root dict `{"title": ..., "outline": [...]}`. -/
structure Hierarchy where
  title : String
  outline : List OutlineNode

/-- `level_map.get(heading.heading_level, 4)`: the dict
`{"h1": 1, "h2": 2, "h3": 3, "other": 4}` with default 4. -/
def levelMap (s : String) : Nat :=
  if s = "h1" then 1 else if s = "h2" then 2 else if s = "h3" then 3 else 4

/-- A stack entry: the bottom root dict (`level_val` absent, `.get`
default 0) or a heading frame carrying its `level_val`. -/
inductive StackEntry where
| root (title : String) (children : List OutlineNode)
| node (level_val : Nat) (level : String) (text : String) (page : Nat)
    (children : List OutlineNode)

/-- `stack[-1].get("level_val", 0)`. -/
def entryLevel : StackEntry → Nat
| .root _ _ => 0
| .node lv _ _ _ _ => lv

/-- Close a frame into the `OutlineNode` it has been building.  (The
root case is unreachable on well-formed stacks; it yields a dummy.) -/
def finalize : StackEntry → OutlineNode
| .root t cs => .mk "H0" t 0 cs
| .node _ l t p cs => .mk l t p cs

/-- Attach a finished child node at the end of an entry's `outline`. -/
def pushChild (c : OutlineNode) : StackEntry → StackEntry
| .root t cs => .root t (cs ++ [c])
| .node lv l t p cs => .node lv l t p (cs ++ [c])

/-- The re-parenting loop (`while stack and parent_level >= current_level`):
pop while the top's level is ≥ the current heading's level, attaching each
popped frame to the entry below; `none` models the `IndexError` of the
`stack[-1]` read when the pop empties the stack. -/
def popLoop (cur : Nat) : StackEntry → List StackEntry → Option (List StackEntry)
| top, [] => if cur ≤ entryLevel top then none else some [top]
| top, next :: rest =>
  if cur ≤ entryLevel top then popLoop cur (pushChild (finalize top) next) rest
  else some (top :: next :: rest)

/-- The main `for heading in classified_headings` loop.  `last` is
`last_heading_text` (`None` initially); a heading whose text equals it is
skipped.  Otherwise the stack is re-parented and a fresh frame
`{"level": f"H{cur}", ..., "outline": [], "level_val": cur}` is pushed. -/
def buildGo : Option String → StackEntry → List StackEntry →
    List ClassifiedHeading → Option (StackEntry × List StackEntry)
| _, top, rest, [] => some (top, rest)
| last, top, rest, h :: hs =>
  if last = some h.text then buildGo last top rest hs
  else
    match popLoop (levelMap h.heading_level) top rest with
    | none => none
    | some [] => none
    | some (t :: r) =>
      buildGo (some h.text)
        (.node (levelMap h.heading_level)
          ("H" ++ toString (levelMap h.heading_level)) h.text h.page [])
        (t :: r) hs

/-- Attach the still-open frames to their parents down to the root (in
the Python code these dicts are already linked into the tree). -/
def collapseAll : StackEntry → List StackEntry → Option Hierarchy
| .root t cs, [] => some ⟨t, cs⟩
| .node _ _ _ _ _, [] => none
| top, next :: rest => collapseAll (pushChild (finalize top) next) rest

/-- `build_hierarchy` (linker.py). -/
def build_hierarchy (document_title : String)
    (classified_headings : List ClassifiedHeading) : Option Hierarchy :=
  match buildGo none (.root document_title []) [] classified_headings with
  | none => none
  | some (top, rest) => collapseAll top rest

/-- The skip rule of the builder loop as a list transformation: drop a
heading whose text equals the previous accepted heading's text. -/
def dedupAdj : Option String → List ClassifiedHeading → List ClassifiedHeading
| _, [] => []
| last, h :: hs =>
  if last = some h.text then dedupAdj last hs
  else h :: dedupAdj (some h.text) hs

/-- Nesting well-formedness below a parent of level `plv`: the node's
level string is `H{lv}` for some `lv > plv` and its children are
well-formed below `lv`. -/
inductive NodeOk : Nat → OutlineNode → Prop where
| mk : ∀ (plv lv : Nat) (t : String) (p : Nat) (cs : List OutlineNode),
    plv < lv → (∀ c ∈ cs, NodeOk lv c) →
    NodeOk plv (.mk ("H" ++ toString lv) t p cs)

/-- Preorder projection of a node forest to (level, text, page) triples. -/
def flattenL : List OutlineNode → List (String × String × Nat)
| [] => []
| .mk l t p cs :: rest => (l, t, p) :: (flattenL cs ++ flattenL rest)

/-- What a stack entry contributes to the preorder listing. -/
def entryProj : StackEntry → List (String × String × Nat)
| .root _ cs => flattenL cs
| .node _ l t p cs => (l, t, p) :: flattenL cs

/-- Preorder listing of the whole stack (top of stack listed last, after
its ancestors, as in the final tree). -/
def sflat : List StackEntry → List (String × String × Nat)
| [] => []
| e :: rest => sflat rest ++ entryProj e

/-- Per-entry invariant: node frames carry the level string matching
their `level_val`, and all attached children nest strictly below the
entry's level. -/
def entryOk : StackEntry → Prop
| .root _ cs => ∀ c ∈ cs, NodeOk 0 c
| .node lv l _ _ cs => l = "H" ++ toString lv ∧ ∀ c ∈ cs, NodeOk lv c

/-- Stack invariant (top first): nonempty, levels strictly decreasing
towards the bottom, every entry `entryOk`, non-bottom entries are node
frames and the bottom is the root. -/
def stackInv : List StackEntry → Prop
| [] => False
| [e] => (∃ t cs, e = .root t cs) ∧ entryOk e
| e :: e' :: rest =>
  (∃ lv l tx p cs, e = .node lv l tx p cs) ∧ entryOk e ∧
    entryLevel e' < entryLevel e ∧ stackInv (e' :: rest)

/-- Concrete h1 heading for exercising the hierarchy theorems. -/
def c5HeadA : ClassifiedHeading :=
  { id := 1, label := "title", parent_id := 0, order := 0, confidence := mkRat 9 10,
    text := "Alpha", gt_text := "", box := (0, 0, 0, 0), page := 0, heading_level := "h1" }

/-- Concrete h2 heading nested under `c5HeadA`. -/
def c5HeadB : ClassifiedHeading :=
  { id := 2, label := "section-title", parent_id := 0, order := 1, confidence := mkRat 9 10,
    text := "Beta", gt_text := "", box := (0, 0, 0, 0), page := 1, heading_level := "h2" }

/-- Concrete heading used twice in a row for the de-duplication witness. -/
def c6Head : ClassifiedHeading :=
  { id := 1, label := "section-title", parent_id := 0, order := 1, confidence := mkRat 9 10,
    text := "Dup", gt_text := "", box := (0, 0, 0, 0), page := 2, heading_level := "h2" }

theorem qmul_eq (a b : ℚ) : qmul a b = a * b := by
  unfold qmul
  rw [Rat.divInt_eq_div]
  push_cast
  conv_rhs => rw [← Rat.num_div_den a, ← Rat.num_div_den b]
  rw [div_mul_div_comm]

theorem qdiv_eq (a b : ℚ) : qdiv a b = a / b := by
  unfold qdiv
  rcases eq_or_ne b 0 with hb | hb
  · subst hb
    show Rat.divInt (a.num * ((0 : ℚ).den : ℤ)) ((a.den : ℤ) * (0 : ℚ).num) = _
    norm_num
  · have hden : ((a.den : ℚ)) ≠ 0 := by
      exact_mod_cast a.den_nz
    have hbnum : ((b.num : ℚ)) ≠ 0 := by
      exact_mod_cast Rat.num_ne_zero.mpr hb
    have hbden : ((b.den : ℚ)) ≠ 0 := by
      exact_mod_cast b.den_nz
    have ha : (a.num : ℚ) = a * a.den := (div_eq_iff hden).mp (Rat.num_div_den a)
    have hbn : (b.num : ℚ) = b * b.den := (div_eq_iff hbden).mp (Rat.num_div_den b)
    rw [Rat.divInt_eq_div]
    push_cast
    rw [div_eq_div_iff (mul_ne_zero hden hbnum) hb, ha, hbn]
    ring

theorem qsub_eq (a b : ℚ) : qsub a b = a - b := by
  unfold qsub
  have hda : ((a.den : ℚ)) ≠ 0 := by exact_mod_cast a.den_nz
  have hdb : ((b.den : ℚ)) ≠ 0 := by exact_mod_cast b.den_nz
  have ha : (a.num : ℚ) = a * a.den := (div_eq_iff hda).mp (Rat.num_div_den a)
  have hbn : (b.num : ℚ) = b * b.den := (div_eq_iff hdb).mp (Rat.num_div_den b)
  rw [Rat.divInt_eq_div]
  push_cast
  rw [div_eq_iff (mul_ne_zero hda hdb), ha, hbn]
  ring

theorem listInfixCheck_iff (sub l : List Char) :
    listInfixCheck sub l = true ↔ sub <:+: l := by
  induction l with
  | nil =>
    simp only [listInfixCheck, List.isEmpty_iff]
    constructor
    · rintro rfl; exact List.infix_rfl
    · intro h; exact List.eq_nil_of_infix_nil h
  | cons c rest ih =>
    simp only [listInfixCheck, Bool.or_eq_true, List.isPrefixOf_iff_prefix, ih,
      List.infix_cons_iff]

theorem isSubstr_iff (sub sup : String) :
    isSubstr sub sup = true ↔ sub.data <:+: sup.data :=
  listInfixCheck_iff sub.data sup.data

/-- Under `¬ (t18 < fs)` the guard `fs ≤ t18` of the middle bands is
automatic, so the chained-comparison bands of Rule 1 collapse to simple
threshold tests. -/
theorem sizeBand_simp (t11 t13 t18 fs : ℚ) :
    (if t18 < fs then (5 : ℕ) else if t13 < fs ∧ fs ≤ t18 then 3
      else if t11 < fs ∧ fs ≤ t13 then 2 else 0) =
    (if t18 < fs then (5 : ℕ) else if t13 < fs then 3
      else if t11 < fs then 2 else 0) := by
  rcases lt_or_le t18 fs with h18 | h18
  · rw [if_pos h18, if_pos h18]
  · rw [if_neg (not_lt.mpr h18), if_neg (not_lt.mpr h18)]
    rcases lt_or_le t13 fs with h13 | h13
    · rw [if_pos ⟨h13, h18⟩, if_pos h13]
    · rw [if_neg (fun hc => absurd hc.1 (not_lt.mpr h13)), if_neg (not_lt.mpr h13)]
      rcases lt_or_le t11 fs with h11 | h11
      · rw [if_pos ⟨h11, h13⟩, if_pos h11]
      · rw [if_neg (fun hc => absurd hc.1 (not_lt.mpr h11)), if_neg (not_lt.mpr h11)]

theorem sizeBandSimple_mono (t11 t13 t18 fs1 fs2 : ℚ) (h : fs1 ≤ fs2) :
    (if t18 < fs1 then (5 : ℕ) else if t13 < fs1 then 3
      else if t11 < fs1 then 2 else 0) ≤
    (if t18 < fs2 then (5 : ℕ) else if t13 < fs2 then 3
      else if t11 < fs2 then 2 else 0) := by
  split_ifs <;> first | omega | (exfalso; linarith)

theorem sanity_check_1 : numberingMatch "2.1 Background" = true := by decide
theorem sanity_check_2 : numberingMatch "A. Background" = true := by decide
theorem sanity_check_3 : numberingMatch "1 Background" = true := by decide
theorem sanity_check_4 : numberingMatch "1. Introduction" = false := by decide
theorem sanity_check_5 : numberingMatch "10.2.3 Results" = true := by decide
theorem sanity_check_6 : numberingMatch "a. x" = false := by decide

theorem sanity_check_7 : pyRound (mkRat 5 2) = 2 := by decide
theorem sanity_check_8 : pyRound (mkRat 3 2) = 2 := by decide
theorem sanity_check_9 : pyRound (mkRat 7 5) = 1 := by decide
theorem sanity_check_10 : pyRound (mkRat (-3) 2) = -2 := by decide
theorem sanity_check_11 : hasContent "  a " = true := by decide
theorem sanity_check_12 : hasContent "   " = false := by decide
theorem sanity_check_13 : wordCount "1. Introduction  to x" = 4 := by decide
theorem sanity_check_14 : pyIsUpper "ABC 12" = true := by decide
theorem sanity_check_15 : pyIsUpper "ABc" = false := by decide
theorem sanity_check_16 : pyIsUpper "12 3" = false := by decide
theorem sanity_check_17 : endsWithDot "a." = true := by decide
theorem sanity_check_18 : joinWithSpace ["ab", "c"] = "ab c" := by decide
theorem sanity_check_19 : isSubstr "bc" "abcd" = true := by decide
theorem sanity_check_20 : isSubstr "bd" "abcd" = false := by decide

/-- C7: For every fragment and baseline, increasing the fragment's
`fontSize` while holding every other field and the baseline fixed never
decreases the heading score (`calculate_heading_score` is monotone
non-decreasing in `font_size`). -/
theorem C7_heading_score_monotone_in_font_size
    (b : RichTextBlock) (body fs1 fs2 : ℚ) (h : fs1 ≤ fs2) :
    calculate_heading_score { b with font_size := fs1 } body ≤
      calculate_heading_score { b with font_size := fs2 } body := by
  unfold calculate_heading_score
  simp only
  have hband :
      (if qmul (mkRat 18 10) body < fs1 then (5 : ℕ)
        else if qmul (mkRat 13 10) body < fs1 ∧ fs1 ≤ qmul (mkRat 18 10) body then 3
        else if qmul (mkRat 11 10) body < fs1 ∧ fs1 ≤ qmul (mkRat 13 10) body then 2
        else 0) ≤
      (if qmul (mkRat 18 10) body < fs2 then (5 : ℕ)
        else if qmul (mkRat 13 10) body < fs2 ∧ fs2 ≤ qmul (mkRat 18 10) body then 3
        else if qmul (mkRat 11 10) body < fs2 ∧ fs2 ≤ qmul (mkRat 13 10) body then 2
        else 0) := by
    rw [sizeBand_simp, sizeBand_simp]
    exact sizeBandSimple_mono _ _ _ _ _ h
  omega

/-- Witness for C7 at a concrete fragment, baseline 12, and font sizes
12 ≤ 27/2. -/
theorem C7_witness :
    (12 : ℚ) ≤ mkRat 27 2 ∧
      calculate_heading_score
          { text := "Overview", x0 := 100, y0 := 100, x1 := 300, y1 := 112,
            font_size := 12, font_name := "helv", is_bold := false,
            is_italic := false, page_num := 0, block_id := 0 } 12 ≤
        calculate_heading_score
          { text := "Overview", x0 := 100, y0 := 100, x1 := 300, y1 := 112,
            font_size := mkRat 27 2, font_name := "helv", is_bold := false,
            is_italic := false, page_num := 0, block_id := 0 } 12 :=
  ⟨by decide,
    C7_heading_score_monotone_in_font_size
      { text := "Overview", x0 := 100, y0 := 100, x1 := 300, y1 := 112,
        font_size := 0, font_name := "helv", is_bold := false,
        is_italic := false, page_num := 0, block_id := 0 } 12 12 (mkRat 27 2)
      (by decide)⟩

/-- C2 (code bug in rules.py, Rule 4): the source regex
`^((\d+(\.\d+)*)|([A-Z]\.))\s` does NOT match a top-level numeric marker
such as `"1. "` — its numeric branch requires a digit after every dot —
although the code's own comment (`e.g., "1.", "2.1", "A."`) and the spec
both promise the +5 numbering bonus for `"1."`.  Concretely,
`"1. Introduction"` at body font size earns only brevity (+1) and
no-trailing-period (+1): score 2 instead of the promised 7. -/
theorem C2_numbering_regex_rejects_topLevel_marker :
    numberingMatch "1. Introduction" = false ∧
    numberingMatch "2.1 Background" = true ∧
    numberingMatch "A. Background" = true ∧
    calculate_heading_score
        { text := "1. Introduction", x0 := 100, y0 := 100, x1 := 300, y1 := 112,
          font_size := 12, font_name := "helv", is_bold := false,
          is_italic := false, page_num := 0, block_id := 7 } 12 = 2 :=
  ⟨by decide, by decide, by decide, by decide⟩

section StableSort

variable {α : Type} {κ : Type} [DecidableEq κ] (k : α → κ) (kle : κ → κ → Bool)

theorem insertS_perm (x : α) (l : List α) :
    List.Perm (insertS k kle x l) (x :: l) := by
  induction l with
  | nil => simp [insertS]
  | cons y ys ih =>
    by_cases h : kle (k y) (k x) = true
    · rw [insertS, if_pos h]
      exact (ih.cons y).trans (List.Perm.swap x y ys)
    · rw [insertS, if_neg h]

theorem insertS_sorted
    (htot : ∀ v w, kle v w = true ∨ kle w v = true)
    (htrans : ∀ u v w, kle u v = true → kle v w = true → kle u w = true)
    (x : α) (l : List α) (hs : SortedK k kle l) :
    SortedK k kle (insertS k kle x l) := by
  induction l with
  | nil => simp [insertS, SortedK]
  | cons y ys ih =>
    rcases hs with _ | ⟨hy, hys⟩
    by_cases h : kle (k y) (k x) = true
    · rw [insertS, if_pos h]
      refine List.Pairwise.cons ?_ (ih hys)
      intro a ha
      rcases List.mem_cons.mp ((insertS_perm k kle x ys).mem_iff.mp ha) with rfl | ha'
      · exact h
      · exact hy a ha'
    · rw [insertS, if_neg h]
      have hxy : kle (k x) (k y) = true := (htot (k x) (k y)).resolve_right (by simpa using h)
      refine List.Pairwise.cons ?_ (List.Pairwise.cons hy hys)
      intro a ha
      rcases List.mem_cons.mp ha with rfl | ha'
      · exact hxy
      · exact htrans _ _ _ hxy (hy a ha')

theorem insertS_filter
    (htot : ∀ v w, kle v w = true ∨ kle w v = true)
    (x : α) (l : List α) (hs : SortedK k kle l) (v : κ) :
    (insertS k kle x l).filter (fun a => k a = v) =
      if k x = v then l.filter (fun a => k a = v) ++ [x]
      else l.filter (fun a => k a = v) := by
  have hrefl : ∀ w, kle w w = true := fun w => (htot w w).elim id id
  induction l with
  | nil =>
    by_cases hx : k x = v <;> simp [insertS, List.filter, hx]
  | cons y ys ih =>
    rcases hs with _ | ⟨hy, hys⟩
    by_cases h : kle (k y) (k x) = true
    · rw [insertS, if_pos h]
      by_cases hyv : k y = v <;> by_cases hxv : k x = v <;>
        simp [List.filter_cons, hyv, hxv, ih hys]
    · rw [insertS, if_neg h]
      by_cases hxv : k x = v
      · have hempty : (y :: ys).filter (fun a => k a = v) = [] := by
          rw [List.filter_eq_nil_iff]
          intro a ha hav
          rw [decide_eq_true_eq] at hav
          have hkax : k a = k x := by rw [hav, hxv]
          have hcontr : kle (k y) (k x) = true := by
            rcases List.mem_cons.mp ha with rfl | ha'
            · rw [hkax]; exact hrefl (k x)
            · exact hkax ▸ hy a ha'
          exact h hcontr
        rw [if_pos hxv, hempty, List.filter_cons_of_pos (by simpa using hxv), hempty]
        rfl
      · rw [if_neg hxv, List.filter_cons_of_neg (by simpa using hxv)]

theorem foldl_insertS_sorted
    (htot : ∀ v w, kle v w = true ∨ kle w v = true)
    (htrans : ∀ u v w, kle u v = true → kle v w = true → kle u w = true)
    (l : List α) (acc : List α) (hs : SortedK k kle acc) :
    SortedK k kle (l.foldl (fun a x => insertS k kle x a) acc) := by
  induction l generalizing acc with
  | nil => exact hs
  | cons x xs ih => exact ih _ (insertS_sorted k kle htot htrans x acc hs)

theorem foldl_insertS_filter
    (htot : ∀ v w, kle v w = true ∨ kle w v = true)
    (htrans : ∀ u v w, kle u v = true → kle v w = true → kle u w = true)
    (l : List α) (acc : List α) (hs : SortedK k kle acc) (v : κ) :
    (l.foldl (fun a x => insertS k kle x a) acc).filter (fun a => k a = v) =
      acc.filter (fun a => k a = v) ++ l.filter (fun a => k a = v) := by
  induction l generalizing acc with
  | nil => simp
  | cons x xs ih =>
    rw [List.foldl_cons, ih _ (insertS_sorted k kle htot htrans x acc hs),
      insertS_filter k kle htot x acc hs v, List.filter_cons]
    by_cases hxv : k x = v
    · simp [hxv]
    · simp [hxv]

theorem pySortK_sorted
    (htot : ∀ v w, kle v w = true ∨ kle w v = true)
    (htrans : ∀ u v w, kle u v = true → kle v w = true → kle u w = true)
    (l : List α) : SortedK k kle (pySortK k kle l) :=
  foldl_insertS_sorted k kle htot htrans l [] (List.Pairwise.nil)

theorem pySortK_filter
    (htot : ∀ v w, kle v w = true ∨ kle w v = true)
    (htrans : ∀ u v w, kle u v = true → kle v w = true → kle u w = true)
    (l : List α) (v : κ) :
    (pySortK k kle l).filter (fun a => k a = v) = l.filter (fun a => k a = v) :=
  foldl_insertS_filter k kle htot htrans l [] (List.Pairwise.nil) v

theorem pySortK_perm (l : List α) : List.Perm (pySortK k kle l) l := by
  suffices h : ∀ acc, List.Perm (l.foldl (fun a x => insertS k kle x a) acc) (acc ++ l) by
    simpa using h []
  induction l with
  | nil => simp
  | cons x xs ih =>
    intro acc
    rw [List.foldl_cons]
    refine (ih (insertS k kle x acc)).trans ?_
    have h1 : List.Perm (insertS k kle x acc ++ xs) ((x :: acc) ++ xs) :=
      (insertS_perm k kle x acc).append_right xs
    refine h1.trans ?_
    simp only [List.cons_append]
    exact (List.perm_middle).symm

/-- A sorted list is determined by its key-fibre subsequences: the
uniqueness of stable sorting. -/
theorem sortedK_filters_unique
    (hanti : ∀ v w, kle v w = true → kle w v = true → v = w)
    (l₁ l₂ : List α) (h₁ : SortedK k kle l₁) (h₂ : SortedK k kle l₂)
    (hf : ∀ v, l₁.filter (fun a => k a = v) = l₂.filter (fun a => k a = v)) :
    l₁ = l₂ := by
  induction l₁ generalizing l₂ with
  | nil =>
    cases l₂ with
    | nil => rfl
    | cons b t₂ =>
      have hcontr := hf (k b)
      rw [List.filter_cons_of_pos (by simp)] at hcontr
      simp at hcontr
  | cons a t₁ ih =>
    cases l₂ with
    | nil =>
      have hcontr := hf (k a)
      rw [List.filter_cons_of_pos (by simp)] at hcontr
      simp at hcontr
    | cons b t₂ =>
      rcases h₁ with _ | ⟨ha, ht₁⟩
      rcases h₂ with _ | ⟨hb, ht₂⟩
      have hab : a = b := by
        by_cases hk : k b = k a
        · have heads := hf (k a)
          rw [List.filter_cons_of_pos (by simp),
            List.filter_cons_of_pos (by simpa using hk)] at heads
          exact (List.cons_eq_cons.mp heads).1
        · exfalso
          have hbmem : b ∈ a :: t₁ := by
            have hmem : b ∈ (a :: t₁).filter (fun x => k x = k b) := by
              rw [hf (k b), List.filter_cons_of_pos (by simp)]
              exact List.mem_cons_self _ _
            exact List.mem_of_mem_filter hmem
          have hamem : a ∈ b :: t₂ := by
            have hmem : a ∈ (b :: t₂).filter (fun x => k x = k a) := by
              rw [← hf (k a), List.filter_cons_of_pos (by simp)]
              exact List.mem_cons_self _ _
            exact List.mem_of_mem_filter hmem
          have h1 : kle (k a) (k b) = true := by
            rcases List.mem_cons.mp hbmem with heq | hmem
            · exact absurd (congrArg k heq) hk
            · exact ha b hmem
          have h2 : kle (k b) (k a) = true := by
            rcases List.mem_cons.mp hamem with heq | hmem
            · exact absurd (congrArg k heq).symm hk
            · exact hb a hmem
          exact hk (hanti _ _ h2 h1)
      subst hab
      have htails : ∀ v, t₁.filter (fun x => k x = v) = t₂.filter (fun x => k x = v) := by
        intro v
        have hv' := hf v
        by_cases hv : k a = v
        · rw [List.filter_cons_of_pos (by simpa using hv),
            List.filter_cons_of_pos (by simpa using hv)] at hv'
          exact (List.cons_eq_cons.mp hv').2
        · rwa [List.filter_cons_of_neg (by simpa using hv),
            List.filter_cons_of_neg (by simpa using hv)] at hv'
      rw [ih t₂ ht₁ ht₂ htails]

theorem pySortK_eq_of_sorted
    (htot : ∀ v w, kle v w = true ∨ kle w v = true)
    (htrans : ∀ u v w, kle u v = true → kle v w = true → kle u w = true)
    (hanti : ∀ v w, kle v w = true → kle w v = true → v = w)
    (l : List α) (hs : SortedK k kle l) : pySortK k kle l = l :=
  sortedK_filters_unique k kle hanti _ l
    (pySortK_sorted k kle htot htrans l) hs
    (pySortK_filter k kle htot htrans l)

end StableSort

theorem qle_tot : ∀ v w : ℚ, qle v w = true ∨ qle w v = true := by
  intro v w
  simp only [qle, decide_eq_true_eq]
  exact le_total v w

theorem qle_trans : ∀ u v w : ℚ, qle u v = true → qle v w = true → qle u w = true := by
  intro u v w
  simp only [qle, decide_eq_true_eq]
  exact le_trans

theorem qle_anti : ∀ v w : ℚ, qle v w = true → qle w v = true → v = w := by
  intro v w
  simp only [qle, decide_eq_true_eq]
  exact le_antisymm

theorem kle2_tot : ∀ v w : Nat × Nat, kle2 v w = true ∨ kle2 w v = true := by
  intro v w
  simp only [kle2, Bool.or_eq_true, Bool.and_eq_true, decide_eq_true_eq]
  omega

theorem kle2_trans : ∀ u v w : Nat × Nat,
    kle2 u v = true → kle2 v w = true → kle2 u w = true := by
  intro u v w
  simp only [kle2, Bool.or_eq_true, Bool.and_eq_true, decide_eq_true_eq]
  omega

theorem kle2_anti : ∀ v w : Nat × Nat, kle2 v w = true → kle2 w v = true → v = w := by
  intro v w
  simp only [kle2, Bool.or_eq_true, Bool.and_eq_true, decide_eq_true_eq]
  intro h1 h2
  have : v.1 = w.1 ∧ v.2 = w.2 := by omega
  exact Prod.ext this.1 this.2

theorem kle1_tot : ∀ v w : Nat × ℚ × ℚ, kle1 v w = true ∨ kle1 w v = true := by
  intro v w
  simp only [kle1, Bool.or_eq_true, Bool.and_eq_true, decide_eq_true_eq]
  rcases Nat.lt_trichotomy v.1 w.1 with h | h | h
  · exact Or.inl (Or.inl h)
  · rcases lt_trichotomy v.2.1 w.2.1 with h2 | h2 | h2
    · exact Or.inl (Or.inr ⟨h, Or.inl h2⟩)
    · rcases le_total v.2.2 w.2.2 with h3 | h3
      · exact Or.inl (Or.inr ⟨h, Or.inr ⟨h2, h3⟩⟩)
      · exact Or.inr (Or.inr ⟨h.symm, Or.inr ⟨h2.symm, h3⟩⟩)
    · exact Or.inr (Or.inr ⟨h.symm, Or.inl h2⟩)
  · exact Or.inr (Or.inl h)

theorem kle1_trans : ∀ u v w : Nat × ℚ × ℚ,
    kle1 u v = true → kle1 v w = true → kle1 u w = true := by
  intro u v w
  simp only [kle1, Bool.or_eq_true, Bool.and_eq_true, decide_eq_true_eq]
  rintro (h1 | ⟨h1, h1'⟩) (h2 | ⟨h2, h2'⟩)
  · exact Or.inl (h1.trans h2)
  · exact Or.inl (h2 ▸ h1)
  · exact Or.inl (h1 ▸ h2)
  · refine Or.inr ⟨h1.trans h2, ?_⟩
    rcases h1' with h3 | ⟨h3, h3'⟩ <;> rcases h2' with h4 | ⟨h4, h4'⟩
    · exact Or.inl (h3.trans h4)
    · exact Or.inl (h4 ▸ h3)
    · exact Or.inl (h3 ▸ h4)
    · exact Or.inr ⟨h3.trans h4, h3'.trans h4'⟩

theorem kle1_anti : ∀ v w : Nat × ℚ × ℚ, kle1 v w = true → kle1 w v = true → v = w := by
  intro v w
  simp only [kle1, Bool.or_eq_true, Bool.and_eq_true, decide_eq_true_eq]
  rintro (h1 | ⟨h1, h1'⟩) (h2 | ⟨h2, h2'⟩)
  · exact absurd h1 (Nat.lt_asymm h2)
  · exact absurd h1 (h2 ▸ Nat.lt_irrefl _)
  · exact absurd h2 (h1 ▸ Nat.lt_irrefl _)
  · have h22 : v.2 = w.2 := by
      rcases h1' with h3 | ⟨h3, h3'⟩ <;> rcases h2' with h4 | ⟨h4, h4'⟩
      · exact absurd h3 (not_lt.mpr h4.le)
      · exact absurd h3 (h4 ▸ lt_irrefl _)
      · exact absurd h4 (h3 ▸ lt_irrefl _)
      · exact Prod.ext h3 (le_antisymm h3' h4')
    exact Prod.ext h1 h22

theorem addToGroups_keys (key : Nat × ℤ) (b : RichTextBlock)
    (gs : List ((Nat × ℤ) × List RichTextBlock)) :
    (addToGroups key b gs).map Prod.fst =
      if key ∈ gs.map Prod.fst then gs.map Prod.fst else gs.map Prod.fst ++ [key] := by
  induction gs with
  | nil => simp [addToGroups]
  | cons p rest ih =>
    obtain ⟨k', bs⟩ := p
    by_cases hk : k' = key
    · subst hk
      simp [addToGroups]
    · rw [addToGroups]
      rw [if_neg hk]
      simp only [List.map_cons, List.mem_cons]
      rw [ih]
      by_cases hmem : key ∈ List.map Prod.fst rest
      · rw [if_pos hmem, if_pos (Or.inr hmem)]
      · rw [if_neg hmem, if_neg ?_]
        · simp
        · rintro (h | h)
          · exact hk h.symm
          · exact hmem h

theorem addToGroups_ok (key : Nat × ℤ) (b : RichTextBlock)
    (gs : List ((Nat × ℤ) × List RichTextBlock))
    (hb : keepBlock b = true) (hkey : lineKey b = key) (h : GroupsOk gs) :
    GroupsOk (addToGroups key b gs) := by
  obtain ⟨hmem, hnodup⟩ := h
  constructor
  · induction gs with
    | nil =>
      intro p hp
      rcases List.mem_singleton.mp hp with rfl
      refine ⟨by simp, ?_⟩
      intro x hx
      rcases List.mem_singleton.mp hx with rfl
      exact ⟨hkey, hb⟩
    | cons q rest ih =>
      obtain ⟨k', bs⟩ := q
      intro p hp
      rw [addToGroups] at hp
      by_cases hk : k' = key
      · rw [if_pos hk] at hp
        rcases List.mem_cons.mp hp with rfl | hp'
        · obtain ⟨hne, hall⟩ := hmem (k', bs) (List.mem_cons_self _ _)
          refine ⟨by simp, ?_⟩
          intro x hx
          rcases List.mem_append.mp hx with hx' | hx'
          · exact hall x hx'
          · rcases List.mem_singleton.mp hx' with rfl
            exact ⟨hk ▸ hkey, hb⟩
        · exact hmem p (List.mem_cons_of_mem _ hp')
      · rw [if_neg hk] at hp
        rcases List.mem_cons.mp hp with rfl | hp'
        · exact hmem (k', bs) (List.mem_cons_self _ _)
        · exact ih (fun q hq => hmem q (List.mem_cons_of_mem _ hq))
            ((List.nodup_cons.mp hnodup).2) p hp'
  · rw [addToGroups_keys]
    by_cases hmem' : key ∈ gs.map Prod.fst
    · rwa [if_pos hmem']
    · rw [if_neg hmem']
      rw [List.nodup_append]
      refine ⟨hnodup, List.nodup_singleton _, ?_⟩
      intro x hx hx'
      rcases List.mem_singleton.mp hx' with rfl
      exact hmem' hx

theorem groupBlocks_ok (blocks : List RichTextBlock) : GroupsOk (groupBlocks blocks) := by
  suffices h : ∀ acc, GroupsOk acc →
      GroupsOk (blocks.foldl
        (fun gs b => if keepBlock b then addToGroups (lineKey b) b gs else gs) acc) by
    exact h [] ⟨by simp, by simp⟩
  induction blocks with
  | nil => intro acc hacc; exact hacc
  | cons b bs ih =>
    intro acc hacc
    rw [List.foldl_cons]
    by_cases hb : keepBlock b = true
    · rw [if_pos hb]
      exact ih _ (addToGroups_ok (lineKey b) b acc hb rfl hacc)
    · rw [if_neg hb]
      exact ih _ hacc

theorem maxByFirst_mem {α κ : Type} [LinearOrder κ] (f : α → κ) (x : α) (xs : List α) :
    maxByFirst f x xs ∈ x :: xs := by
  suffices h : ∀ (start : α) (l : List α),
      l.foldl (fun best c => if f best < f c then c else best) start ∈ start :: l by
    exact h x xs
  intro start l
  induction l generalizing start with
  | nil => simp
  | cons c cs ih =>
    rw [List.foldl_cons]
    by_cases hc : f start < f c
    · rw [if_pos hc]
      rcases List.mem_cons.mp (ih c) with h | h
      · simp [h]
      · exact List.mem_cons_of_mem _ (List.mem_cons_of_mem _ h)
    · rw [if_neg hc]
      rcases List.mem_cons.mp (ih start) with h | h
      · simp [h]
      · exact List.mem_cons_of_mem _ (List.mem_cons_of_mem _ h)

theorem minQ_mem (x : ℚ) (xs : List ℚ) : minQ x xs ∈ x :: xs := by
  unfold minQ
  induction xs generalizing x with
  | nil => simp
  | cons c cs ih =>
    rw [List.foldl_cons]
    rcases List.mem_cons.mp (ih (min x c)) with h | h
    · rcases min_choice x c with hm | hm <;> rw [hm] at h ⊢ <;> simp [h]
    · exact List.mem_cons_of_mem _ (List.mem_cons_of_mem _ h)

theorem joinWithSpace_singleton (t : String) : joinWithSpace [t] = t := by
  show String.mk (List.intercalate [' '] [t.data]) = t
  rw [List.intercalate]
  simp [List.intersperse]

theorem joinWithSpace_space_mem (t1 t2 : String) (ts : List String) :
    ' ' ∈ (joinWithSpace (t1 :: t2 :: ts)).data := by
  show ' ' ∈ List.intercalate [' '] (t1.data :: t2.data :: ts.map String.data)
  rw [List.intercalate]
  simp [List.intersperse]

theorem emptySentinel_no_space : ' ' ∉ "[EMPTY]".data := by decide

/-- The merged text of a group of kept blocks is never the `"[EMPTY]"`
sentinel once it has content. -/
theorem mergedText_ne_sentinel (s0 : RichTextBlock) (srest : List RichTextBlock)
    (hmem : ∀ x ∈ s0 :: srest, keepBlock x = true)
    (hct : hasContent (mergedText s0 srest) = true) :
    mergedText s0 srest ≠ "[EMPTY]" := by
  unfold mergedText at hct ⊢
  rcases hts : ((s0 :: srest).filter (fun b => hasContent b.text)).map RichTextBlock.text
    with _ | ⟨t1, ts⟩
  · rw [hts] at hct
    exact absurd hct (by decide)
  · rw [hts] at hct ⊢
    rcases ts with _ | ⟨t2, ts'⟩
    · rw [joinWithSpace_singleton]
      have ht1 : t1 ∈ ((s0 :: srest).filter (fun b => hasContent b.text)).map
          RichTextBlock.text := by rw [hts]; exact List.mem_singleton.mpr rfl
      obtain ⟨m, hm, hmt⟩ := List.mem_map.mp ht1
      have hkeep := hmem m (List.mem_of_mem_filter hm)
      rw [keepBlock, Bool.and_eq_true] at hkeep
      intro hcontra
      rw [hmt, hcontra] at hkeep
      simpa using hkeep.2
    · intro hcontra
      have hsp := joinWithSpace_space_mem t1 t2 ts'
      rw [hcontra] at hsp
      exact emptySentinel_no_space hsp

/-- A merged block keeps content, never reproduces the `"[EMPTY]"`
sentinel, and carries the line key of its group. -/
theorem mergeGroup_props (key : Nat × ℤ) (g : List RichTextBlock) (b : RichTextBlock)
    (hg : ∀ x ∈ g, lineKey x = key ∧ keepBlock x = true)
    (hb : mergeGroup g = some b) :
    lineKey b = key ∧ hasContent b.text = true ∧ b.text ≠ "[EMPTY]" := by
  unfold mergeGroup at hb
  split at hb
  · exact absurd hb (by simp)
  · rename_i s0 srest hs
    have hsortmem : ∀ x ∈ s0 :: srest, lineKey x = key ∧ keepBlock x = true := by
      intro x hx
      refine hg x ((pySortK_perm (fun b => b.x0) qle g).mem_iff.mp ?_)
      rw [hs]; exact hx
    split at hb
    · rename_i hct
      obtain rfl : mergedBlock s0 srest = b := Option.some.inj hb
      refine ⟨?_, hct, mergedText_ne_sentinel s0 srest (fun x hx => (hsortmem x hx).2) hct⟩
      have hdom := maxByFirst_mem RichTextBlock.font_size s0 srest
      have hdomkey := (hsortmem _ hdom).1
      have hy0 : ∃ m ∈ s0 :: srest, m.y0 = (mergedBlock s0 srest).y0 := by
        have hmm := minQ_mem s0.y0 (srest.map RichTextBlock.y0)
        have hmm' : (mergedBlock s0 srest).y0 ∈ (s0 :: srest).map RichTextBlock.y0 := by
          simpa [mergedBlock] using hmm
        obtain ⟨m, hm, hmy⟩ := List.mem_map.mp hmm'
        exact ⟨m, hm, hmy⟩
      obtain ⟨m, hm, hmy⟩ := hy0
      have hmkey := (hsortmem m hm).1
      unfold lineKey at hdomkey hmkey ⊢
      have h1 : (mergedBlock s0 srest).page_num = key.1 := congrArg Prod.fst hdomkey
      have h2 : pyRound (qdiv (mergedBlock s0 srest).y0 5) = key.2 := by
        rw [← hmy]
        exact congrArg Prod.snd hmkey
      exact Prod.ext h1 h2
    · exact absurd hb (by simp)

theorem post_process_eq (blocks : List RichTextBlock) (h : blocks.isEmpty = false) :
    post_process_blocks blocks =
      pySortK key1 kle1 (dedupGo [] (pySortK key2 kle2 (mergedOf blocks))) := by
  rw [post_process_blocks, if_neg (by simp [h])]
  rfl

theorem mergedOf_keys_sublist (gs : List ((Nat × ℤ) × List RichTextBlock))
    (h : ∀ p ∈ gs, ∀ b ∈ p.2, lineKey b = p.1 ∧ keepBlock b = true) :
    List.Sublist ((gs.filterMap (fun kg => mergeGroup kg.2)).map lineKey)
      (gs.map Prod.fst) := by
  induction gs with
  | nil => simp
  | cons p rest ih =>
    rw [List.filterMap_cons]
    rcases hm : mergeGroup p.2 with _ | b
    · exact (ih (fun q hq => h q (List.mem_cons_of_mem _ hq))).trans
        (List.sublist_cons_self _ _)
    · have hkey := (mergeGroup_props p.1 p.2 b (h p (List.mem_cons_self _ _)) hm).1
      rw [List.map_cons, List.map_cons, hkey]
      exact (ih (fun q hq => h q (List.mem_cons_of_mem _ hq))).cons₂ p.1

theorem mergedOf_keys_nodup (blocks : List RichTextBlock) :
    ((mergedOf blocks).map lineKey).Nodup := by
  obtain ⟨hmem, hnodup⟩ := groupBlocks_ok blocks
  exact (mergedOf_keys_sublist (groupBlocks blocks)
    (fun p hp => (hmem p hp).2)).nodup hnodup

theorem mergedOf_content (blocks : List RichTextBlock) :
    ∀ b ∈ mergedOf blocks, hasContent b.text = true ∧ b.text ≠ "[EMPTY]" := by
  intro b hb
  obtain ⟨kg, hkg, hm⟩ := List.mem_filterMap.mp hb
  obtain ⟨hmem, _⟩ := groupBlocks_ok blocks
  have hprops := mergeGroup_props kg.1 kg.2 b (fun x hx => (hmem kg hkg).2 x hx) hm
  exact ⟨hprops.2.1, hprops.2.2⟩

theorem NoMutualSub_symm : ∀ {a b : RichTextBlock}, NoMutualSub a b → NoMutualSub b a :=
  fun h hpage => ⟨(h hpage.symm).2, (h hpage.symm).1⟩

theorem isSubstr_len_le (a b : String) (h : isSubstr a b = true) : pyLen a ≤ pyLen b :=
  ((isSubstr_iff a b).mp h).length_le

theorem isSubstr_eq_of_len (a b : String) (h : isSubstr a b = true)
    (hlen : pyLen a = pyLen b) : a = b := by
  have hdata := ((isSubstr_iff a b).mp h).eq_of_length hlen
  cases a; cases b
  exact congrArg String.mk hdata

theorem isSubstr_refl (a : String) : isSubstr a a = true :=
  (isSubstr_iff a a).mpr List.infix_rfl

theorem dedupGo_append (acc l : List RichTextBlock) :
    ∃ s, dedupGo acc l = acc ++ s ∧ List.Sublist s l := by
  induction l generalizing acc with
  | nil => exact ⟨[], by simp [dedupGo], List.Sublist.refl _⟩
  | cons b bs ih =>
    rw [dedupGo]
    by_cases hchk : (acc.any fun a => a.page_num == b.page_num && isSubstr b.text a.text) = true
    · rw [if_pos hchk]
      obtain ⟨s, h1, h2⟩ := ih acc
      exact ⟨s, h1, h2.trans (List.sublist_cons_self _ _)⟩
    · rw [if_neg hchk]
      obtain ⟨s, h1, h2⟩ := ih (acc ++ [b])
      exact ⟨b :: s, by rw [h1, List.append_assoc]; rfl, h2.cons₂ b⟩

theorem dedupGo_pairwise : ∀ (l acc : List RichTextBlock),
    List.Pairwise (fun a b => kle2 (key2 a) (key2 b) = true) l →
    List.Pairwise NoMutualSub acc →
    (∀ a ∈ acc, ∀ c ∈ l, kle2 (key2 a) (key2 c) = true) →
    List.Pairwise NoMutualSub (dedupGo acc l)
  | [], acc, _, hacc, _ => hacc
  | b :: bs, acc, hsorted, hacc, hcross => by
    rcases hsorted with _ | ⟨hb, hbs⟩
    rw [dedupGo]
    by_cases hchk : (acc.any fun a => a.page_num == b.page_num && isSubstr b.text a.text) = true
    · rw [if_pos hchk]
      exact dedupGo_pairwise bs acc hbs hacc
        (fun a ha c hc => hcross a ha c (List.mem_cons_of_mem _ hc))
    · rw [if_neg hchk]
      have hnone : ∀ a ∈ acc,
          (a.page_num == b.page_num && isSubstr b.text a.text) = false := by
        intro a ha
        rcases Bool.eq_false_or_eq_true
          (a.page_num == b.page_num && isSubstr b.text a.text) with h | h
        · exact absurd (List.any_eq_true.mpr ⟨a, ha, h⟩) hchk
        · exact h
      have hacc' : List.Pairwise NoMutualSub (acc ++ [b]) := by
        rw [List.pairwise_append]
        refine ⟨hacc, List.pairwise_singleton _ _, ?_⟩
        intro a ha b' hb'
        rcases List.mem_singleton.mp hb' with rfl
        intro hpage
        have hb_not_in_a : isSubstr b'.text a.text = false := by
          rcases Bool.and_eq_false_iff.mp (hnone a ha) with h | h
          · exact absurd hpage (by simpa using h)
          · exact h
        refine ⟨?_, hb_not_in_a⟩
        cases hsub : isSubstr a.text b'.text with
        | false => rfl
        | true =>
          exfalso
          have hle : pyLen a.text ≤ pyLen b'.text := isSubstr_len_le _ _ hsub
          have hge : pyLen b'.text ≤ pyLen a.text := by
            have hk := hcross a ha b' (List.mem_cons_self _ _)
            simp only [kle2, key2, Bool.or_eq_true, Bool.and_eq_true,
              decide_eq_true_eq] at hk
            omega
          have heq : a.text = b'.text := isSubstr_eq_of_len _ _ hsub (le_antisymm hle hge)
          rw [heq, isSubstr_refl] at hb_not_in_a
          exact absurd hb_not_in_a (by simp)
      refine dedupGo_pairwise bs (acc ++ [b]) hbs hacc' ?_
      intro a ha c hc
      rcases List.mem_append.mp ha with ha' | ha'
      · exact hcross a ha' c (List.mem_cons_of_mem _ hc)
      · rcases List.mem_singleton.mp ha' with rfl
        exact hb c hc

theorem dedupGo_all_kept : ∀ (l acc : List RichTextBlock),
    List.Pairwise NoMutualSub l →
    (∀ a ∈ acc, ∀ c ∈ l, a.page_num = c.page_num → isSubstr c.text a.text = false) →
    dedupGo acc l = acc ++ l
  | [], acc, _, _ => by simp [dedupGo]
  | b :: bs, acc, hpw, hcross => by
    rcases hpw with _ | ⟨hb, hbs⟩
    rw [dedupGo]
    have hchk : (acc.any fun a => a.page_num == b.page_num && isSubstr b.text a.text) = false := by
      rw [List.any_eq_false]
      intro a ha
      simp only [Bool.not_eq_true]
      rw [Bool.and_eq_false_iff]
      by_cases hpage : a.page_num = b.page_num
      · exact Or.inr (hcross a ha b (List.mem_cons_self _ _) hpage)
      · exact Or.inl (by simpa using hpage)
    rw [if_neg (by simp [hchk])]
    have hcross' : ∀ a ∈ acc ++ [b], ∀ c ∈ bs,
        a.page_num = c.page_num → isSubstr c.text a.text = false := by
      intro a ha c hc
      rcases List.mem_append.mp ha with ha' | ha'
      · exact hcross a ha' c (List.mem_cons_of_mem _ hc)
      · rcases List.mem_singleton.mp ha' with rfl
        exact fun hpage => ((hb c hc) hpage).2
    rw [dedupGo_all_kept bs (acc ++ [b]) hbs hcross', List.append_assoc]
    rfl

/-- C3: For every input, the Fragment Merger's output contains no two
fragments on the same page with one text a strict substring of the
other's, and the output is sorted by `(page, y0, x0)` (reading order). -/
theorem C3_merger_output_sorted_and_substring_free (blocks : List RichTextBlock) :
    List.Pairwise (fun a b =>
        a.page_num < b.page_num ∨ (a.page_num = b.page_num ∧
          (a.y0 < b.y0 ∨ (a.y0 = b.y0 ∧ a.x0 ≤ b.x0))))
      (post_process_blocks blocks) ∧
    List.Pairwise (fun a b => a.page_num = b.page_num →
        ¬ StrictSubstring a.text b.text ∧ ¬ StrictSubstring b.text a.text)
      (post_process_blocks blocks) := by
  by_cases hemp : blocks.isEmpty = true
  · rw [post_process_blocks, if_pos hemp]
    exact ⟨List.Pairwise.nil, List.Pairwise.nil⟩
  · rw [post_process_eq blocks (by simpa using hemp)]
    have hsorted2 : SortedK key2 kle2 (pySortK key2 kle2 (mergedOf blocks)) :=
      pySortK_sorted key2 kle2 kle2_tot kle2_trans _
    have hdd : List.Pairwise NoMutualSub
        (dedupGo [] (pySortK key2 kle2 (mergedOf blocks))) :=
      dedupGo_pairwise _ [] hsorted2 List.Pairwise.nil (by simp)
    have hout : List.Pairwise NoMutualSub
        (pySortK key1 kle1 (dedupGo [] (pySortK key2 kle2 (mergedOf blocks)))) :=
      hdd.perm (pySortK_perm key1 kle1 _).symm (fun h => NoMutualSub_symm h)
    constructor
    · refine (pySortK_sorted key1 kle1 kle1_tot kle1_trans _).imp ?_
      intro a b hab
      simpa [kle1, key1, Bool.or_eq_true, Bool.and_eq_true, decide_eq_true_eq] using hab
    · refine hout.imp ?_
      intro a b hab hpage
      obtain ⟨h1, h2⟩ := hab hpage
      constructor
      · rintro ⟨hne, hinf⟩
        rw [(isSubstr_iff a.text b.text).mpr hinf] at h1
        exact absurd h1 (by simp)
      · rintro ⟨hne, hinf⟩
        rw [(isSubstr_iff b.text a.text).mpr hinf] at h2
        exact absurd h2 (by simp)

theorem addToGroups_new (key : Nat × ℤ) (b : RichTextBlock)
    (gs : List ((Nat × ℤ) × List RichTextBlock)) (h : key ∉ gs.map Prod.fst) :
    addToGroups key b gs = gs ++ [(key, [b])] := by
  induction gs with
  | nil => rfl
  | cons p rest ih =>
    obtain ⟨k', bs⟩ := p
    rw [addToGroups, if_neg ?_, ih ?_]
    · rfl
    · intro hmem
      exact h (by simp [hmem])
    · intro heq
      exact h (by simp [heq])

/-- When every block is kept and line keys are pairwise distinct, the
grouping pass produces one singleton group per block, in order. -/
theorem groupBlocks_singletons : ∀ (l : List RichTextBlock)
    (acc : List ((Nat × ℤ) × List RichTextBlock)),
    (∀ b ∈ l, keepBlock b = true) →
    (acc.map Prod.fst ++ l.map lineKey).Nodup →
    l.foldl (fun gs b => if keepBlock b then addToGroups (lineKey b) b gs else gs) acc
      = acc ++ l.map (fun b => (lineKey b, [b]))
  | [], acc, _, _ => by simp
  | b :: bs, acc, hkeep, hnodup => by
    rw [List.foldl_cons, if_pos (hkeep b (List.mem_cons_self _ _))]
    have hnot : lineKey b ∉ acc.map Prod.fst := by
      intro hmem
      exact (List.nodup_append.mp hnodup).2.2 hmem
        (List.mem_map_of_mem lineKey (List.mem_cons_self _ _))
    rw [addToGroups_new _ _ _ hnot]
    rw [groupBlocks_singletons bs (acc ++ [(lineKey b, [b])])
      (fun x hx => hkeep x (List.mem_cons_of_mem _ hx)) ?_]
    · rw [List.append_assoc]
      rfl
    · have heq : (acc ++ [(lineKey b, [b])]).map Prod.fst ++ bs.map lineKey =
          acc.map Prod.fst ++ (b :: bs).map lineKey := by
        simp [List.append_assoc]
      rw [heq]
      exact hnodup

theorem mergeGroup_singleton (b : RichTextBlock) (h : keepBlock b = true) :
    mergeGroup [b] = some b := by
  have hct : hasContent b.text = true := by
    rw [keepBlock, Bool.and_eq_true] at h
    exact h.1
  have hsort : pySortK (fun x => x.x0) qle [b] = [b] := rfl
  have htext : mergedText b [] = b.text := by
    unfold mergedText
    rw [show (([b] : List RichTextBlock).filter (fun x => hasContent x.text)) = [b] from
      List.filter_cons_of_pos (by simpa using hct)]
    exact joinWithSpace_singleton b.text
  have hmb : mergedBlock b [] = b := by
    unfold mergedBlock
    rw [htext]
    rfl
  unfold mergeGroup
  rw [hsort]
  show (if hasContent (mergedText b []) = true then some (mergedBlock b []) else none) = some b
  rw [htext, if_pos hct, hmb]

theorem filterMap_mergeGroup_singletons (l : List RichTextBlock)
    (h : ∀ b ∈ l, keepBlock b = true) :
    (l.map (fun b => (lineKey b, [b]))).filterMap (fun kg => mergeGroup kg.2) = l := by
  induction l with
  | nil => rfl
  | cons b bs ih =>
    rw [List.map_cons, List.filterMap_cons]
    rw [show mergeGroup ((lineKey b, [b]) : (Nat × ℤ) × List RichTextBlock).2 = some b from
      mergeGroup_singleton b (h b (List.mem_cons_self _ _))]
    rw [ih (fun x hx => h x (List.mem_cons_of_mem _ hx))]

/-- Any list satisfying the merger's output invariants is a fixed point
of `post_process_blocks`: each block forms its own singleton line group
(distinct keys), merging a singleton group returns the block unchanged,
de-duplication drops nothing, and the two stable sorts recompose to the
original `(page, y0, x0)` order. -/
theorem post_process_fixed (o : List RichTextBlock)
    (hkeep : ∀ b ∈ o, keepBlock b = true)
    (hnodup : (o.map lineKey).Nodup)
    (hpw : List.Pairwise NoMutualSub o)
    (hsorted1 : SortedK key1 kle1 o)
    (hfib : ∀ v, SortedK key2 kle2 (o.filter (fun b => key1 b = v))) :
    post_process_blocks o = o := by
  by_cases ho : o.isEmpty = true
  · rw [List.isEmpty_iff.mp ho]
    rfl
  · rw [post_process_eq o (by simpa using ho)]
    have hmerged : mergedOf o = o := by
      unfold mergedOf
      rw [show groupBlocks o = [] ++ o.map (fun b => (lineKey b, [b])) from
        groupBlocks_singletons o [] hkeep (by simpa using hnodup)]
      rw [List.nil_append]
      exact filterMap_mergeGroup_singletons o hkeep
    rw [hmerged]
    have hS2pw : List.Pairwise NoMutualSub (pySortK key2 kle2 o) :=
      hpw.perm (pySortK_perm key2 kle2 o).symm (fun h => NoMutualSub_symm h)
    rw [show dedupGo [] (pySortK key2 kle2 o) = pySortK key2 kle2 o from by
      have h := dedupGo_all_kept (pySortK key2 kle2 o) [] hS2pw (by simp)
      simpa using h]
    apply sortedK_filters_unique key1 kle1 kle1_anti
    · exact pySortK_sorted key1 kle1 kle1_tot kle1_trans _
    · exact hsorted1
    · intro v
      rw [pySortK_filter key1 kle1 kle1_tot kle1_trans _ v]
      apply sortedK_filters_unique key2 kle2 kle2_anti
      · exact ((pySortK_sorted key2 kle2 kle2_tot kle2_trans o).filter _)
      · exact hfib v
      · intro w
        rw [List.filter_filter, List.filter_filter]
        have hswap : ∀ (l : List RichTextBlock),
            l.filter (fun a => decide (key2 a = w) && decide (key1 a = v)) =
            l.filter (fun a => decide (key1 a = v) && decide (key2 a = w)) := by
          intro l
          refine List.filter_congr ?_
          intro a _
          rw [Bool.and_comm]
        rw [hswap, hswap, ← List.filter_filter, ← List.filter_filter,
          pySortK_filter key2 kle2 kle2_tot kle2_trans o w]

/-- The merger's output satisfies all the fixed-point invariants. -/
theorem post_process_facts (blocks : List RichTextBlock) :
    (∀ b ∈ post_process_blocks blocks, keepBlock b = true) ∧
    ((post_process_blocks blocks).map lineKey).Nodup ∧
    List.Pairwise NoMutualSub (post_process_blocks blocks) ∧
    SortedK key1 kle1 (post_process_blocks blocks) ∧
    (∀ v, SortedK key2 kle2 ((post_process_blocks blocks).filter (fun b => key1 b = v))) := by
  by_cases hemp : blocks.isEmpty = true
  · rw [post_process_blocks, if_pos hemp]
    refine ⟨by simp, by simp, List.Pairwise.nil, List.Pairwise.nil, ?_⟩
    intro v
    simp only [List.filter_nil]
    exact List.Pairwise.nil
  · rw [post_process_eq blocks (by simpa using hemp)]
    obtain ⟨dd, hdd_eq, hdd_sub⟩ :=
      dedupGo_append [] (pySortK key2 kle2 (mergedOf blocks))
    rw [List.nil_append] at hdd_eq
    have hperm1 : List.Perm
        (pySortK key1 kle1 (dedupGo [] (pySortK key2 kle2 (mergedOf blocks))))
        (dedupGo [] (pySortK key2 kle2 (mergedOf blocks))) :=
      pySortK_perm key1 kle1 _
    have hperm2 : List.Perm (pySortK key2 kle2 (mergedOf blocks)) (mergedOf blocks) :=
      pySortK_perm key2 kle2 _
    have hsorted2 : SortedK key2 kle2 (pySortK key2 kle2 (mergedOf blocks)) :=
      pySortK_sorted key2 kle2 kle2_tot kle2_trans _
    have hddsorted : SortedK key2 kle2 (dedupGo [] (pySortK key2 kle2 (mergedOf blocks))) := by
      rw [hdd_eq]
      exact List.Pairwise.sublist hdd_sub hsorted2
    refine ⟨?_, ?_, ?_, ?_, ?_⟩
    · intro b hb
      have hb1 := hperm1.mem_iff.mp hb
      rw [hdd_eq] at hb1
      have hb2 := hperm2.mem_iff.mp (hdd_sub.subset hb1)
      obtain ⟨hc, hs⟩ := mergedOf_content blocks b hb2
      rw [keepBlock, Bool.and_eq_true]
      exact ⟨hc, decide_eq_true hs⟩
    · have n1 : ((pySortK key2 kle2 (mergedOf blocks)).map lineKey).Nodup :=
        ((hperm2.map lineKey).nodup_iff).mpr (mergedOf_keys_nodup blocks)
      have n2 : ((dedupGo [] (pySortK key2 kle2 (mergedOf blocks))).map lineKey).Nodup := by
        rw [hdd_eq]
        exact List.Nodup.sublist (hdd_sub.map lineKey) n1
      exact ((hperm1.map lineKey).nodup_iff).mpr n2
    · have hdd_pw : List.Pairwise NoMutualSub
          (dedupGo [] (pySortK key2 kle2 (mergedOf blocks))) :=
        dedupGo_pairwise _ [] hsorted2 List.Pairwise.nil (by simp)
      exact hdd_pw.perm hperm1.symm (fun h => NoMutualSub_symm h)
    · exact pySortK_sorted key1 kle1 kle1_tot kle1_trans _
    · intro v
      rw [pySortK_filter key1 kle1 kle1_tot kle1_trans _ v]
      exact hddsorted.filter _

/-- C4: The Fragment Merger is idempotent — applying
`post_process_blocks` to its own output returns that output unchanged
(no further merges or de-duplication occur). -/
theorem C4_merger_idempotent (blocks : List RichTextBlock) :
    post_process_blocks (post_process_blocks blocks) = post_process_blocks blocks := by
  obtain ⟨h1, h2, h3, h4, h5⟩ := post_process_facts blocks
  exact post_process_fixed _ h1 h2 h3 h4 h5

theorem sanity_check_21 :
    (post_process_blocks
      [{ text := "Hello", x0 := 10, y0 := 100, x1 := 40, y1 := 112,
         font_size := 12, font_name := "f", is_bold := false, is_italic := false,
         page_num := 0, block_id := 0 },
       { text := "World", x0 := 50, y0 := 101, x1 := 80, y1 := 113,
         font_size := 14, font_name := "g", is_bold := true, is_italic := false,
         page_num := 0, block_id := 1 }]).map RichTextBlock.text = ["Hello World"] := by
  decide

theorem sanity_check_22 :
    (post_process_blocks
      [{ text := "Hello World", x0 := 10, y0 := 100, x1 := 80, y1 := 112,
         font_size := 12, font_name := "f", is_bold := false, is_italic := false,
         page_num := 0, block_id := 0 },
       { text := "World", x0 := 50, y0 := 300, x1 := 80, y1 := 313,
         font_size := 14, font_name := "g", is_bold := true, is_italic := false,
         page_num := 0, block_id := 1 }]).map RichTextBlock.text = ["Hello World"] := by
  decide

/-- C1: In rule-based mode, for every fragment that passes the
header/footer filter a ClassifiedHeading is emitted iff its heading score
is at least 4; the level is H1 for score ≥ 10, H2 for 7 ≤ score < 10 and
H3 for 4 ≤ score < 7; and the emitted heading carries
`order = level − 1` (0/1/2) and confidence 0.9. -/
theorem C1_rule_based_classification_bands (blocks : List RichTextBlock) (body : ℚ) :
    classify_blocks blocks body =
      blocks.enum.filterMap (fun p =>
        if p.2.x1 < 50 ∨ 742 < p.2.y1 then none
        else if 10 ≤ calculate_heading_score p.2 body then
          some { id := p.1 + 1, label := "title", parent_id := 0, order := 0,
                 confidence := mkRat 9 10, text := p.2.text, gt_text := "",
                 box := (p.2.x0, p.2.y0, p.2.x1, p.2.y1), page := p.2.page_num,
                 heading_level := "h1" }
        else if 7 ≤ calculate_heading_score p.2 body then
          some { id := p.1 + 1, label := "section-title", parent_id := 0, order := 1,
                 confidence := mkRat 9 10, text := p.2.text, gt_text := "",
                 box := (p.2.x0, p.2.y0, p.2.x1, p.2.y1), page := p.2.page_num,
                 heading_level := "h2" }
        else if 4 ≤ calculate_heading_score p.2 body then
          some { id := p.1 + 1, label := "section-title", parent_id := 0, order := 2,
                 confidence := mkRat 9 10, text := p.2.text, gt_text := "",
                 box := (p.2.x0, p.2.y0, p.2.x1, p.2.y1), page := p.2.page_num,
                 heading_level := "h3" }
        else none) := by
  unfold classify_blocks
  congr 1
  funext p
  by_cases hfil : (p.2.x1 < 50 ∨ 742 < p.2.y1)
  · rw [if_pos hfil, if_pos hfil]
  · rw [if_neg hfil, if_neg hfil]
    rw [show get_heading_level_rule_based p.2 body =
        (if 10 ≤ calculate_heading_score p.2 body then some 1
         else if 7 ≤ calculate_heading_score p.2 body then some 2
         else if 4 ≤ calculate_heading_score p.2 body then some 3
         else none) from rfl]
    by_cases h10 : 10 ≤ calculate_heading_score p.2 body
    · rw [if_pos h10, if_pos h10]
      rfl
    · rw [if_neg h10, if_neg h10]
      by_cases h7 : 7 ≤ calculate_heading_score p.2 body
      · rw [if_pos h7, if_pos h7]
        rfl
      · rw [if_neg h7, if_neg h7]
        by_cases h4 : 4 ≤ calculate_heading_score p.2 body
        · rw [if_pos h4, if_pos h4]
          rfl
        · rw [if_neg h4, if_neg h4]
          rfl

/-- Unfolding one step of `maxByFirst`. -/
theorem maxByFirst_cons {α κ : Type} [LinearOrder κ] (f : α → κ) (x c : α) (cs : List α) :
    maxByFirst f x (c :: cs) =
      (if f x < f c then maxByFirst f c cs else maxByFirst f x cs) := by
  show cs.foldl (fun best d => if f best < f d then d else best)
    (if f x < f c then c else x) = _
  by_cases hc : f x < f c
  · rw [if_pos hc, if_pos hc]
    rfl
  · rw [if_neg hc, if_neg hc]
    rfl

/-- Every element's key is at most the first-maximum's key. -/
theorem maxByFirst_le {α κ : Type} [LinearOrder κ] (f : α → κ) (x : α) (xs : List α) :
    ∀ y ∈ x :: xs, f y ≤ f (maxByFirst f x xs) := by
  induction xs generalizing x with
  | nil =>
    intro y hy
    rcases List.mem_singleton.mp hy with rfl
    exact le_refl _
  | cons c cs ih =>
    intro y hy
    rw [maxByFirst_cons]
    by_cases hc : f x < f c
    · rw [if_pos hc]
      rcases List.mem_cons.mp hy with rfl | hy'
      · exact le_of_lt (lt_of_lt_of_le hc (ih c c (List.mem_cons_self _ _)))
      · exact ih c y hy'
    · rw [if_neg hc]
      rcases List.mem_cons.mp hy with rfl | hy'
      · exact ih y y (List.mem_cons_self _ _)
      · rcases List.mem_cons.mp hy' with rfl | hy''
        · exact le_trans (not_lt.mp hc) (ih x x (List.mem_cons_self _ _))
        · exact ih x y (List.mem_cons_of_mem _ hy'')

/-- Python's first-maximum rule, split positionally: everything before
the returned element has a strictly smaller key, everything after has a
key at most as large. -/
theorem maxByFirst_decomp {α κ : Type} [LinearOrder κ] (f : α → κ) (x : α) (xs : List α) :
    ∃ l1 l2, x :: xs = l1 ++ (maxByFirst f x xs) :: l2 ∧
      (∀ y ∈ l1, f y < f (maxByFirst f x xs)) ∧
      (∀ y ∈ l2, f y ≤ f (maxByFirst f x xs)) := by
  induction xs generalizing x with
  | nil => exact ⟨[], [], rfl, by simp, by simp⟩
  | cons c cs ih =>
    rw [maxByFirst_cons]
    by_cases hc : f x < f c
    · rw [if_pos hc]
      obtain ⟨l1, l2, heq, hlt, hle⟩ := ih c
      refine ⟨x :: l1, l2, by rw [List.cons_append, ← heq], ?_, hle⟩
      intro y hy
      rcases List.mem_cons.mp hy with rfl | hy'
      · exact lt_of_lt_of_le hc (maxByFirst_le f c cs c (List.mem_cons_self _ _))
      · exact hlt y hy'
    · rw [if_neg hc]
      obtain ⟨l1, l2, heq, hlt, hle⟩ := ih x
      cases l1 with
      | nil =>
        rw [List.nil_append] at heq
        obtain ⟨hmx, hl2⟩ := List.cons_eq_cons.mp heq
        refine ⟨[], c :: cs, by rw [List.nil_append, ← hmx], by simp, ?_⟩
        intro y hy
        rcases List.mem_cons.mp hy with rfl | hy'
        · exact le_trans (not_lt.mp hc) (le_of_eq (congrArg f hmx))
        · exact maxByFirst_le f x cs y (List.mem_cons_of_mem _ hy')
      | cons a l1' =>
        rw [List.cons_append] at heq
        obtain ⟨hax, hcs⟩ := List.cons_eq_cons.mp heq
        refine ⟨x :: c :: l1', l2, ?_, ?_, hle⟩
        · rw [List.cons_append, List.cons_append, ← hcs]
        · intro y hy
          rcases List.mem_cons.mp hy with rfl | hy'
          · exact hax ▸ hlt a (List.mem_cons_self _ _)
          · rcases List.mem_cons.mp hy' with rfl | hy''
            · exact lt_of_le_of_lt (not_lt.mp hc) (hax ▸ hlt a (List.mem_cons_self _ _))
            · exact hlt y (List.mem_cons_of_mem _ hy'')

theorem counterBump_keys (acc : List (ℚ × Nat)) (x : ℚ) :
    (counterBump acc x).map Prod.fst =
      if x ∈ acc.map Prod.fst then acc.map Prod.fst else acc.map Prod.fst ++ [x] := by
  induction acc with
  | nil => simp [counterBump]
  | cons p rest ih =>
    obtain ⟨k, c⟩ := p
    by_cases hk : k = x
    · subst hk
      simp [counterBump]
    · rw [counterBump, if_neg hk]
      simp only [List.map_cons, List.mem_cons]
      rw [ih]
      by_cases hmem : x ∈ rest.map Prod.fst
      · rw [if_pos hmem, if_pos (Or.inr hmem)]
      · rw [if_neg hmem, if_neg ?_]
        · simp
        · rintro (h | h)
          · exact hk h.symm
          · exact hmem h

theorem counterBump_mem (acc : List (ℚ × Nat)) (x : ℚ)
    (hnodup : (acc.map Prod.fst).Nodup) :
    ∀ p ∈ counterBump acc x,
      (p ∈ acc ∧ p.1 ≠ x) ∨
      (∃ c, (x, c) ∈ acc ∧ p = (x, c + 1)) ∨
      (p = (x, 1) ∧ x ∉ acc.map Prod.fst) := by
  induction acc with
  | nil =>
    intro p hp
    rcases List.mem_singleton.mp hp with rfl
    exact Or.inr (Or.inr ⟨rfl, by simp⟩)
  | cons q rest ih =>
    obtain ⟨k, c⟩ := q
    intro p hp
    rw [List.map_cons, List.nodup_cons] at hnodup
    by_cases hk : k = x
    · subst hk
      rw [counterBump, if_pos rfl] at hp
      rcases List.mem_cons.mp hp with rfl | hp'
      · exact Or.inr (Or.inl ⟨c, List.mem_cons_self _ _, rfl⟩)
      · refine Or.inl ⟨List.mem_cons_of_mem _ hp', ?_⟩
        intro hpx
        exact hnodup.1 (List.mem_map.mpr ⟨p, hp', hpx⟩)
    · rw [counterBump, if_neg hk] at hp
      rcases List.mem_cons.mp hp with rfl | hp'
      · exact Or.inl ⟨List.mem_cons_self _ _, hk⟩
      · rcases ih hnodup.2 p hp' with h | ⟨c', hc', rfl⟩ | ⟨rfl, hnot⟩
        · exact Or.inl ⟨List.mem_cons_of_mem _ h.1, h.2⟩
        · exact Or.inr (Or.inl ⟨c', List.mem_cons_of_mem _ hc', rfl⟩)
        · refine Or.inr (Or.inr ⟨rfl, ?_⟩)
          simp only [List.map_cons, List.mem_cons]
          rintro (h | h)
          · exact hk h.symm
          · exact hnot h

/-- Invariant of the `Counter` fold: counts are exact, keys are distinct,
every processed value has a key, and keys appear in first-occurrence
order of `xs`. -/
theorem counterGo (xs : List ℚ) : ∀ (rest pre : List ℚ) (acc : List (ℚ × Nat)),
    pre ++ rest = xs →
    (∀ p ∈ acc, p.2 = pre.count p.1) →
    ((acc.map Prod.fst).Nodup) →
    (∀ y ∈ pre, y ∈ acc.map Prod.fst) →
    (∀ k ∈ acc.map Prod.fst, k ∈ pre) →
    List.Pairwise (fun k1 k2 => xs.indexOf k1 < xs.indexOf k2) (acc.map Prod.fst) →
    (∀ p ∈ rest.foldl counterBump acc, p.2 = xs.count p.1) ∧
    (((rest.foldl counterBump acc).map Prod.fst).Nodup) ∧
    (∀ y ∈ xs, y ∈ (rest.foldl counterBump acc).map Prod.fst) ∧
    (∀ k ∈ (rest.foldl counterBump acc).map Prod.fst, k ∈ xs) ∧
    List.Pairwise (fun k1 k2 => xs.indexOf k1 < xs.indexOf k2)
      ((rest.foldl counterBump acc).map Prod.fst)
  | [], pre, acc, heq, hcount, hnodup, hcompl, hsub, hpw => by
    rw [List.append_nil] at heq
    subst heq
    exact ⟨hcount, hnodup, hcompl, hsub, hpw⟩
  | x :: rest', pre, acc, heq, hcount, hnodup, hcompl, hsub, hpw => by
    rw [List.foldl_cons]
    have hxpre : x ∉ acc.map Prod.fst → x ∉ pre := by
      intro hnot hmem
      exact hnot (hcompl x hmem)
    refine counterGo xs rest' (pre ++ [x]) (counterBump acc x)
      (by rw [List.append_assoc]; exact heq) ?_ ?_ ?_ ?_ ?_
    · intro p hp
      rcases counterBump_mem acc x hnodup p hp with ⟨hmem, hne⟩ | ⟨c, hc, rfl⟩ | ⟨rfl, hnot⟩
      · rw [hcount p hmem, List.count_append, List.count_singleton,
          if_neg (by simpa using fun h => hne h.symm)]
        omega
      · have hc2 := hcount (x, c) hc
        simp only at hc2
        simp only [List.count_append, List.count_singleton]
        simp [hc2]
      · have hxp : x ∉ pre := hxpre hnot
        have hzero : pre.count x = 0 := List.count_eq_zero.mpr hxp
        simp only [List.count_append, List.count_singleton]
        simp [hzero]
    · rw [counterBump_keys]
      by_cases hmem : x ∈ acc.map Prod.fst
      · rwa [if_pos hmem]
      · rw [if_neg hmem, List.nodup_append]
        refine ⟨hnodup, List.nodup_singleton _, ?_⟩
        intro k hk hk'
        rcases List.mem_singleton.mp hk' with rfl
        exact hmem hk
    · intro y hy
      rw [counterBump_keys]
      rcases List.mem_append.mp hy with hy' | hy'
      · by_cases hmem : x ∈ acc.map Prod.fst
        · rw [if_pos hmem]; exact hcompl y hy'
        · rw [if_neg hmem]; exact List.mem_append.mpr (Or.inl (hcompl y hy'))
      · rcases List.mem_singleton.mp hy' with rfl
        by_cases hmem : y ∈ acc.map Prod.fst
        · rwa [if_pos hmem]
        · rw [if_neg hmem]; exact List.mem_append.mpr (Or.inr (by simp))
    · intro k hk
      rw [counterBump_keys] at hk
      by_cases hmem : x ∈ acc.map Prod.fst
      · rw [if_pos hmem] at hk
        exact List.mem_append.mpr (Or.inl (hsub k hk))
      · rw [if_neg hmem] at hk
        rcases List.mem_append.mp hk with hk' | hk'
        · exact List.mem_append.mpr (Or.inl (hsub k hk'))
        · rcases List.mem_singleton.mp hk' with rfl
          exact List.mem_append.mpr (Or.inr (by simp))
    · rw [counterBump_keys]
      by_cases hmem : x ∈ acc.map Prod.fst
      · rwa [if_pos hmem]
      · rw [if_neg hmem, List.pairwise_append]
        refine ⟨hpw, List.pairwise_singleton _ _, ?_⟩
        intro k hk x' hx'
        rcases List.mem_singleton.mp hx' with rfl
        have hkpre : k ∈ pre := hsub k hk
        have hxnp : x' ∉ pre := hxpre hmem
        have h1 : xs.indexOf k < pre.length := by
          rw [← heq, List.indexOf_append_of_mem hkpre]
          exact List.indexOf_lt_length.mpr hkpre
        have h2 : xs.indexOf x' = pre.length := by
          rw [← heq, List.indexOf_append_of_not_mem hxnp]
          simp [List.indexOf_cons]
        omega

/-- `most_common(1)` on a non-empty list returns a value with maximal
multiplicity, and among equally frequent values the first-seen one. -/
theorem firstSeenMax_spec (xs : List ℚ) (hne : xs ≠ []) :
    ∃ p : ℚ × Nat, mostCommon1 (counterItems xs) = some p ∧ p.1 ∈ xs ∧
      (∀ w ∈ xs, xs.count w ≤ xs.count p.1) ∧
      (∀ w ∈ xs, xs.count w = xs.count p.1 → xs.indexOf p.1 ≤ xs.indexOf w) := by
  obtain ⟨hcounts, hnodup, hcompl, hsub, hpw⟩ :=
    counterGo xs xs [] [] (List.nil_append xs) (by simp) (by simp) (by simp)
      (by simp) (by simp)
  have hci : counterItems xs = xs.foldl counterBump [] := rfl
  rw [← hci] at hcounts hnodup hcompl hsub hpw
  rcases hitems : counterItems xs with _ | ⟨i0, irest⟩
  · exfalso
    obtain ⟨x, hx⟩ := List.exists_mem_of_ne_nil xs hne
    have hxk := hcompl x hx
    rw [hitems] at hxk
    simp at hxk
  · rw [hitems] at hcounts hnodup hcompl hsub hpw
    obtain ⟨l1, l2, hdec, hlt, hle⟩ := maxByFirst_decomp Prod.snd i0 irest
    have hmmem : maxByFirst Prod.snd i0 irest ∈ i0 :: irest := maxByFirst_mem _ _ _
    have hmcount := hcounts _ hmmem
    refine ⟨maxByFirst Prod.snd i0 irest, rfl,
      hsub _ (List.mem_map_of_mem Prod.fst hmmem), ?_, ?_⟩
    · intro w hw
      obtain ⟨q, hq, hqw⟩ := List.mem_map.mp (hcompl w hw)
      have hqcount := hcounts q hq
      rw [hdec] at hq
      rcases List.mem_append.mp hq with hql | hqr
      · have := hlt q hql
        rw [hqcount, hmcount, hqw] at this
        exact le_of_lt this
      · rcases List.mem_cons.mp hqr with rfl | hql2
        · rw [← hqw]
        · have := hle q hql2
          rw [hqcount, hmcount, hqw] at this
          exact this
    · intro w hw hweq
      obtain ⟨q, hq, hqw⟩ := List.mem_map.mp (hcompl w hw)
      have hqcount := hcounts q hq
      rw [hdec] at hq
      rcases List.mem_append.mp hq with hql | hqr
      · exfalso
        have := hlt q hql
        rw [hqcount, hmcount, hqw, hweq] at this
        exact lt_irrefl _ this
      · rcases List.mem_cons.mp hqr with rfl | hql2
        · rw [hqw]
        · have hpw2 : List.Pairwise (fun k1 k2 => xs.indexOf k1 < xs.indexOf k2)
              ((maxByFirst Prod.snd i0 irest :: l2).map Prod.fst) := by
            refine List.Pairwise.sublist ?_ (hdec ▸ hpw)
            rw [List.map_append]
            exact List.sublist_append_right _ _
          rcases hpw2 with _ | ⟨hhead, _⟩
          have hlast := hhead q.1 (List.mem_map_of_mem Prod.fst hql2)
          rw [hqw] at hlast
          exact le_of_lt hlast

/-- C8 counterexample: with sizes `[14, 14, 12, 12]` the frequencies tie,
the code (`Counter.most_common(1)`) returns the first-seen size 14, but
the claim's smallest-size tie-break demands 12. -/
theorem C8_counterexample_tie_breaks_first_seen_not_smallest :
    get_document_baseline_font_size
        [{ text := "a", x0 := 60, y0 := 100, x1 := 300, y1 := 112, font_size := 14,
           font_name := "f", is_bold := false, is_italic := false, page_num := 0, block_id := 0 },
         { text := "b", x0 := 60, y0 := 200, x1 := 300, y1 := 212, font_size := 14,
           font_name := "f", is_bold := false, is_italic := false, page_num := 0, block_id := 1 },
         { text := "c", x0 := 60, y0 := 300, x1 := 300, y1 := 312, font_size := 12,
           font_name := "f", is_bold := false, is_italic := false, page_num := 0, block_id := 2 },
         { text := "d", x0 := 60, y0 := 400, x1 := 300, y1 := 412, font_size := 12,
           font_name := "f", is_bold := false, is_italic := false, page_num := 0, block_id := 3 }]
      = 14 ∧
    baseline_spec_smallest_tie
        [{ text := "a", x0 := 60, y0 := 100, x1 := 300, y1 := 112, font_size := 14,
           font_name := "f", is_bold := false, is_italic := false, page_num := 0, block_id := 0 },
         { text := "b", x0 := 60, y0 := 200, x1 := 300, y1 := 212, font_size := 14,
           font_name := "f", is_bold := false, is_italic := false, page_num := 0, block_id := 1 },
         { text := "c", x0 := 60, y0 := 300, x1 := 300, y1 := 312, font_size := 12,
           font_name := "f", is_bold := false, is_italic := false, page_num := 0, block_id := 2 },
         { text := "d", x0 := 60, y0 := 400, x1 := 300, y1 := 412, font_size := 12,
           font_name := "f", is_bold := false, is_italic := false, page_num := 0, block_id := 3 }]
      = 12 ∧
    (14 : ℚ) ≠ 12 :=
  ⟨by decide, by decide, by decide⟩

/-- C8 (amended): the Baseline Estimator returns the most frequent
fontSize among non-bold fragments of fewer than 50 words (falling back to
all fragments, then to 12.0), and frequency ties resolve to the
FIRST-SEEN size in iteration order, not the smallest. -/
theorem C8_amended_baseline_most_frequent_first_seen (blocks : List RichTextBlock) :
    (blocks = [] → get_document_baseline_font_size blocks = 12) ∧
    (blocks ≠ [] →
      ∃ fs2 : List ℚ,
        fs2 = (if ((blocks.filter (fun b => !b.is_bold && decide (wordCount b.text < 50))).map
                  RichTextBlock.font_size).isEmpty
               then blocks.map RichTextBlock.font_size
               else (blocks.filter (fun b => !b.is_bold && decide (wordCount b.text < 50))).map
                  RichTextBlock.font_size) ∧
        get_document_baseline_font_size blocks ∈ fs2 ∧
        (∀ w ∈ fs2, fs2.count w ≤ fs2.count (get_document_baseline_font_size blocks)) ∧
        (∀ w ∈ fs2, fs2.count w = fs2.count (get_document_baseline_font_size blocks) →
          fs2.indexOf (get_document_baseline_font_size blocks) ≤ fs2.indexOf w)) := by
  constructor
  · rintro rfl
    rfl
  · intro hne
    have hbe : ¬ (blocks.isEmpty = true) := fun h => hne (List.isEmpty_iff.mp h)
    refine ⟨_, rfl, ?_⟩
    have hfs2ne : (if ((blocks.filter (fun b => !b.is_bold && decide (wordCount b.text < 50))).map
          RichTextBlock.font_size).isEmpty
        then blocks.map RichTextBlock.font_size
        else (blocks.filter (fun b => !b.is_bold && decide (wordCount b.text < 50))).map
          RichTextBlock.font_size) ≠ [] := by
      by_cases hfe : ((blocks.filter (fun b => !b.is_bold && decide (wordCount b.text < 50))).map
          RichTextBlock.font_size).isEmpty = true
      · rw [if_pos hfe]
        intro hmap
        exact hne (List.map_eq_nil_iff.mp hmap)
      · rw [if_neg hfe]
        intro hnil
        exact hfe (by rw [hnil]; rfl)
    have hval : get_document_baseline_font_size blocks =
        (if ((if ((blocks.filter (fun b => !b.is_bold && decide (wordCount b.text < 50))).map
              RichTextBlock.font_size).isEmpty
            then blocks.map RichTextBlock.font_size
            else (blocks.filter (fun b => !b.is_bold && decide (wordCount b.text < 50))).map
              RichTextBlock.font_size)).isEmpty then 12
         else
          match mostCommon1 (counterItems
            ((if ((blocks.filter (fun b => !b.is_bold && decide (wordCount b.text < 50))).map
                RichTextBlock.font_size).isEmpty
              then blocks.map RichTextBlock.font_size
              else (blocks.filter (fun b => !b.is_bold && decide (wordCount b.text < 50))).map
                RichTextBlock.font_size))) with
          | some p => p.1
          | none => 12) := by
      rw [get_document_baseline_font_size, if_neg hbe]
    obtain ⟨p, hp, hpmem, hpmax, hpfirst⟩ := firstSeenMax_spec _ hfs2ne
    rw [hval, if_neg (fun h => hfs2ne (List.isEmpty_iff.mp h)), hp]
    exact ⟨hpmem, hpmax, hpfirst⟩

/-- C9 counterexample: the heading list holds an H1 on page 0 with text
`"X"`, but no block carries that text, so the dict-lookup filter leaves
no valid candidate and the code falls back to the page-0 block `"Y"` —
the claim's promised `"X"` is not returned. -/
theorem C9_counterexample_h1_text_not_among_blocks :
    find_document_title
        [{ text := "Y", x0 := 60, y0 := 100, x1 := 300, y1 := 112, font_size := 10,
           font_name := "f", is_bold := false, is_italic := false, page_num := 0, block_id := 0 }]
        [{ id := 1, label := "title", parent_id := 0, order := 0, confidence := mkRat 9 10,
           text := "X", gt_text := "", box := (0, 0, 0, 0), page := 0, heading_level := "h1" }]
      = "Y" ∧
    ({ id := 1, label := "title", parent_id := 0, order := 0, confidence := mkRat 9 10,
       text := "X", gt_text := "", box := (0, 0, 0, 0), page := 0,
       heading_level := "h1" } : ClassifiedHeading).heading_level = "h1" ∧
    ({ id := 1, label := "title", parent_id := 0, order := 0, confidence := mkRat 9 10,
       text := "X", gt_text := "", box := (0, 0, 0, 0), page := 0,
       heading_level := "h1" } : ClassifiedHeading).page = 0 ∧
    ("Y" : String) ≠ "X" :=
  ⟨by decide, rfl, rfl, by decide⟩

/-- C9 (amended): if some H1 heading of page 0 has its text among the
blocks, the title is the text of the first-encountered valid page-0 H1 of
maximal looked-up font size — the positional decomposition below records
strictly smaller keys before it and no larger key after it. -/
theorem C9_amended_title_prefers_valid_page_zero_h1
    (blocks : List RichTextBlock) (headings : List ClassifiedHeading)
    (hex : ∃ h ∈ headings, h.heading_level = "h1" ∧ h.page = 0 ∧
      (lastWithText blocks h.text).isSome = true) :
    ∃ h l1 l2,
      h ∈ headings ∧ h.heading_level = "h1" ∧ h.page = 0 ∧
      find_document_title blocks headings = h.text ∧
      (headings.filter (fun x => x.heading_level == "h1" && x.page == 0)).filter
          (fun x => (lastWithText blocks x.text).isSome) = l1 ++ h :: l2 ∧
      (∀ y ∈ l1, titleKey blocks y < titleKey blocks h) ∧
      (∀ y ∈ l2, titleKey blocks y ≤ titleKey blocks h) := by
  obtain ⟨h0, hh0, hlev0, hpage0, hsome0⟩ := hex
  have hbne : blocks.isEmpty = false := by
    cases blocks with
    | nil => simp [lastWithText] at hsome0
    | cons b bs => rfl
  have hm1 : h0 ∈ headings.filter (fun x => x.heading_level == "h1" && x.page == 0) := by
    refine List.mem_filter.mpr ⟨hh0, ?_⟩
    simp [hlev0, hpage0]
  have hm2 : h0 ∈ (headings.filter (fun x => x.heading_level == "h1" && x.page == 0)).filter
      (fun x => (lastWithText blocks x.text).isSome) :=
    List.mem_filter.mpr ⟨hm1, hsome0⟩
  rcases hvalid : (headings.filter (fun x => x.heading_level == "h1" && x.page == 0)).filter
      (fun x => (lastWithText blocks x.text).isSome) with _ | ⟨v, vs⟩
  · rw [hvalid] at hm2
    exact absurd hm2 (List.not_mem_nil h0)
  have hp1 : ¬ ((headings.filter
      (fun x => x.heading_level == "h1" && x.page == 0)).isEmpty = true) := by
    cases hfl : headings.filter (fun x => x.heading_level == "h1" && x.page == 0) with
    | nil => rw [hfl] at hm1; exact absurd hm1 (List.not_mem_nil h0)
    | cons a as => simp
  have hmem : maxByFirst (titleKey blocks) v vs ∈
      (headings.filter (fun x => x.heading_level == "h1" && x.page == 0)).filter
        (fun x => (lastWithText blocks x.text).isSome) := by
    rw [hvalid]
    exact maxByFirst_mem (titleKey blocks) v vs
  have hm2' := List.mem_filter.mp hmem
  have hm1' := List.mem_filter.mp hm2'.1
  have hmprops : (maxByFirst (titleKey blocks) v vs).heading_level = "h1" ∧
      (maxByFirst (titleKey blocks) v vs).page = 0 := by
    have hb := hm1'.2
    simp only [Bool.and_eq_true, beq_iff_eq] at hb
    exact hb
  have hcompute : find_document_title blocks headings =
      (maxByFirst (titleKey blocks) v vs).text := by
    unfold find_document_title
    rw [if_neg (by rw [hbne]; exact Bool.false_ne_true)]
    rw [if_neg hp1]
    rw [hvalid]
  obtain ⟨l1, l2, hdec, hlt, hle⟩ := maxByFirst_decomp (titleKey blocks) v vs
  refine ⟨maxByFirst (titleKey blocks) v vs, l1, l2, hm1'.1, hmprops.1, hmprops.2,
    hcompute, ?_, hlt, hle⟩
  rw [hvalid]
  exact hdec

theorem C9_amended_witness :
    ∃ h l1 l2,
      h ∈ [c9Heading] ∧ h.heading_level = "h1" ∧ h.page = 0 ∧
      find_document_title [c9Block] [c9Heading] = h.text ∧
      ([c9Heading].filter (fun x => x.heading_level == "h1" && x.page == 0)).filter
          (fun x => (lastWithText [c9Block] x.text).isSome) = l1 ++ h :: l2 ∧
      (∀ y ∈ l1, titleKey [c9Block] y < titleKey [c9Block] h) ∧
      (∀ y ∈ l2, titleKey [c9Block] y ≤ titleKey [c9Block] h) :=
  C9_amended_title_prefers_valid_page_zero_h1 [c9Block] [c9Heading]
    ⟨c9Heading, by decide, by decide, by decide, by decide⟩

theorem levelMap_pos (s : String) : 1 ≤ levelMap s := by
  unfold levelMap
  split_ifs <;> omega

theorem entryLevel_pushChild (c : OutlineNode) (e : StackEntry) :
    entryLevel (pushChild c e) = entryLevel e := by
  cases e <;> rfl

theorem flattenL_append (xs ys : List OutlineNode) :
    flattenL (xs ++ ys) = flattenL xs ++ flattenL ys := by
  induction xs with
  | nil => simp [flattenL]
  | cons n rest ih =>
    cases n with
    | mk l t p cs => simp [flattenL, ih]

theorem entryProj_pushChild (c : OutlineNode) (e : StackEntry) :
    entryProj (pushChild c e) = entryProj e ++ flattenL [c] := by
  cases e with
  | root t cs =>
    simp [pushChild, entryProj, flattenL_append]
  | node lv l t p cs =>
    simp [pushChild, entryProj, flattenL_append]

theorem entryOk_pushChild (c : OutlineNode) (e : StackEntry)
    (he : entryOk e) (hc : NodeOk (entryLevel e) c) :
    entryOk (pushChild c e) := by
  cases e with
  | root t cs =>
    intro c' hc'
    rcases List.mem_append.mp hc' with h | h
    · exact he c' h
    · rcases List.mem_singleton.mp h with rfl
      exact hc
  | node lv l t p cs =>
    refine ⟨he.1, ?_⟩
    intro c' hc'
    rcases List.mem_append.mp hc' with h | h
    · exact he.2 c' h
    · rcases List.mem_singleton.mp h with rfl
      exact hc

theorem stackInv_pushChild (c : OutlineNode) (e : StackEntry) (rest : List StackEntry)
    (hinv : stackInv (e :: rest)) (hc : NodeOk (entryLevel e) c) :
    stackInv (pushChild c e :: rest) := by
  cases rest with
  | nil =>
    obtain ⟨⟨t, cs, rfl⟩, hok⟩ := hinv
    exact ⟨⟨t, cs ++ [c], rfl⟩, entryOk_pushChild c _ hok hc⟩
  | cons e2 rest2 =>
    obtain ⟨⟨lv, l, tx, p, cs, rfl⟩, hok, hlt, hrest⟩ := hinv
    exact ⟨⟨lv, l, tx, p, cs ++ [c], rfl⟩, entryOk_pushChild c _ hok hc,
      by rw [entryLevel_pushChild]; exact hlt, hrest⟩

/-- A node frame satisfying the invariant finalizes to a node that nests
correctly below any strictly smaller level. -/
theorem finalize_nodeOk (lv : Nat) (l tx : String) (p : Nat) (cs : List OutlineNode)
    (plv : Nat) (hok : entryOk (.node lv l tx p cs)) (hlt : plv < lv) :
    NodeOk plv (finalize (.node lv l tx p cs)) := by
  obtain ⟨hl, hcs⟩ := hok
  subst hl
  exact NodeOk.mk plv lv tx p cs hlt hcs

/-- The re-parenting loop never faults on an invariant-respecting stack
with a heading level ≥ 1: it returns a nonempty stack, preserves the
invariant and the preorder listing, and leaves a top of level < `cur`. -/
theorem popLoop_spec (cur : Nat) (hcur : 1 ≤ cur) :
    ∀ (rest : List StackEntry) (top : StackEntry), stackInv (top :: rest) →
    ∃ t' r', popLoop cur top rest = some (t' :: r') ∧ stackInv (t' :: r') ∧
      entryLevel t' < cur ∧ sflat (t' :: r') = sflat (top :: rest) := by
  intro rest
  induction rest with
  | nil =>
    intro top hinv
    obtain ⟨⟨t, cs, rfl⟩, hok⟩ := hinv
    refine ⟨.root t cs, [], ?_, ⟨⟨t, cs, rfl⟩, hok⟩, ?_, rfl⟩
    · unfold popLoop
      rw [if_neg (by simp only [entryLevel]; omega)]
    · simp only [entryLevel]; omega
  | cons next rest2 ih =>
    intro top hinv
    obtain ⟨⟨lv, l, tx, p, cs, rfl⟩, hok, hlt, hrest⟩ := hinv
    by_cases hc : cur ≤ entryLevel (StackEntry.node lv l tx p cs)
    · have hnode : NodeOk (entryLevel next)
          (finalize (StackEntry.node lv l tx p cs)) :=
        finalize_nodeOk lv l tx p cs (entryLevel next) hok
          (by simpa only [entryLevel] using hlt)
      have hinv' : stackInv
          (pushChild (finalize (StackEntry.node lv l tx p cs)) next :: rest2) :=
        stackInv_pushChild _ next rest2 hrest hnode
      obtain ⟨t', r', heq, hinv'', hlev, hfl⟩ := ih _ hinv'
      refine ⟨t', r', ?_, hinv'', hlev, ?_⟩
      · unfold popLoop
        rw [if_pos hc]
        exact heq
      · rw [hfl]
        simp only [sflat]
        rw [entryProj_pushChild]
        simp only [entryProj, finalize, flattenL, List.append_nil, List.append_assoc]
    · refine ⟨StackEntry.node lv l tx p cs, next :: rest2, ?_, ?_, ?_, rfl⟩
      · unfold popLoop
        rw [if_neg hc]
      · unfold stackInv
        exact ⟨⟨lv, l, tx, p, cs, rfl⟩, hok, hlt, hrest⟩
      · simp only [entryLevel] at hc ⊢
        omega

/-- The heading loop never faults on an invariant-respecting stack; the
preorder listing grows by exactly the projections of the accepted
(`dedupAdj`-surviving) headings, in order. -/
theorem buildGo_spec :
    ∀ (hs : List ClassifiedHeading) (last : Option String)
      (top : StackEntry) (rest : List StackEntry), stackInv (top :: rest) →
    ∃ t' r', buildGo last top rest hs = some (t', r') ∧ stackInv (t' :: r') ∧
      sflat (t' :: r') = sflat (top :: rest) ++
        (dedupAdj last hs).map
          (fun h => ("H" ++ toString (levelMap h.heading_level), h.text, h.page)) := by
  intro hs
  induction hs with
  | nil =>
    intro last top rest hinv
    exact ⟨top, rest, rfl, hinv, by simp [dedupAdj]⟩
  | cons h hs ih =>
    intro last top rest hinv
    by_cases hskip : last = some h.text
    · obtain ⟨t', r', heq, hinv', hfl⟩ := ih last top rest hinv
      refine ⟨t', r', ?_, hinv', ?_⟩
      · simp only [buildGo]
        rw [if_pos hskip]
        exact heq
      · rw [hfl]
        simp only [dedupAdj]
        rw [if_pos hskip]
    · obtain ⟨t1, r1, hpop, hinv1, hlev1, hfl1⟩ :=
        popLoop_spec (levelMap h.heading_level) (levelMap_pos _) rest top hinv
      have hinv2 : stackInv
          (StackEntry.node (levelMap h.heading_level)
            ("H" ++ toString (levelMap h.heading_level)) h.text h.page [] ::
            t1 :: r1) := by
        unfold stackInv
        exact ⟨⟨_, _, _, _, _, rfl⟩, ⟨rfl, by intro c hc; simp at hc⟩,
          by simpa only [entryLevel] using hlev1, hinv1⟩
      obtain ⟨t', r', heq, hinv', hfl⟩ := ih (some h.text) _ (t1 :: r1) hinv2
      refine ⟨t', r', ?_, hinv', ?_⟩
      · simp only [buildGo]
        rw [if_neg hskip, hpop]
        exact heq
      · rw [hfl]
        simp only [sflat, entryProj, flattenL, dedupAdj] at *
        rw [if_neg hskip]
        simp only [List.map_cons]
        rw [hfl1]
        simp [List.append_assoc]

/-- Collapsing an invariant-respecting stack succeeds, produces a
well-nested forest under the root, and preserves the preorder listing. -/
theorem collapseAll_spec :
    ∀ (rest : List StackEntry) (top : StackEntry), stackInv (top :: rest) →
    ∃ t cs, collapseAll top rest = some ⟨t, cs⟩ ∧ (∀ c ∈ cs, NodeOk 0 c) ∧
      flattenL cs = sflat (top :: rest) := by
  intro rest
  induction rest with
  | nil =>
    intro top hinv
    obtain ⟨⟨t, cs, rfl⟩, hok⟩ := hinv
    exact ⟨t, cs, rfl, hok, by simp [sflat, entryProj]⟩
  | cons next rest2 ih =>
    intro top hinv
    obtain ⟨⟨lv, l, tx, p, cs, rfl⟩, hok, hlt, hrest⟩ := hinv
    have hnode : NodeOk (entryLevel next)
        (finalize (StackEntry.node lv l tx p cs)) :=
      finalize_nodeOk lv l tx p cs (entryLevel next) hok
        (by simpa only [entryLevel] using hlt)
    have hinv' : stackInv
        (pushChild (finalize (StackEntry.node lv l tx p cs)) next :: rest2) :=
      stackInv_pushChild _ next rest2 hrest hnode
    obtain ⟨t, cs', heq, hok', hfl⟩ := ih _ hinv'
    refine ⟨t, cs', heq, hok', ?_⟩
    rw [hfl]
    simp only [sflat]
    rw [entryProj_pushChild]
    simp only [entryProj, finalize, flattenL, List.append_nil, List.append_assoc]

/-- The builder computes the same hierarchy on the raw heading list and
on its adjacently de-duplicated version: skipping is all the `last`
tracking does. -/
theorem buildGo_dedup :
    ∀ (hs : List ClassifiedHeading) (last : Option String)
      (top : StackEntry) (rest : List StackEntry),
    buildGo last top rest hs = buildGo last top rest (dedupAdj last hs) := by
  intro hs
  induction hs with
  | nil => intro last top rest; rfl
  | cons h hs ih =>
    intro last top rest
    by_cases hskip : last = some h.text
    · simp only [buildGo, dedupAdj]
      rw [if_pos hskip, if_pos hskip]
      exact ih last top rest
    · simp only [buildGo, dedupAdj]
      rw [if_neg hskip, if_neg hskip]
      simp only [buildGo]
      rw [if_neg hskip]
      cases hpop : popLoop (levelMap h.heading_level) top rest with
      | none => rfl
      | some s =>
        cases s with
        | nil => rfl
        | cons t r => exact ih (some h.text) _ (t :: r)

/-- C10: the re-parenting pop loop always halts with a nonempty stack —
the root's defaulted level 0 is strictly below every mapped heading level
(min 1), so the root is never popped, the `stack[-1]` read never faults,
and `build_hierarchy` is total. -/
theorem C10_build_hierarchy_total (document_title : String)
    (classified_headings : List ClassifiedHeading) :
    ∃ h, build_hierarchy document_title classified_headings = some h := by
  have hinv : stackInv [StackEntry.root document_title []] := by
    unfold stackInv
    exact ⟨⟨document_title, [], rfl⟩, fun c hc => absurd hc (List.not_mem_nil c)⟩
  obtain ⟨t', r', hb, hinv', _⟩ :=
    buildGo_spec classified_headings none (StackEntry.root document_title []) [] hinv
  obtain ⟨ti, cs, hcol, _, _⟩ := collapseAll_spec r' t' hinv'
  refine ⟨⟨ti, cs⟩, ?_⟩
  unfold build_hierarchy
  rw [hb]
  exact hcol

/-- C5: in every produced tree, each non-root node's integer level is
strictly greater than its parent's (`NodeOk`, root level 0), and the
preorder listing of the tree is exactly the accepted headings in
original document order — in particular siblings appear in document
order. -/
theorem C5_hierarchy_nesting_and_sibling_order (document_title : String)
    (classified_headings : List ClassifiedHeading) (r : Hierarchy)
    (hr : build_hierarchy document_title classified_headings = some r) :
    (∀ c ∈ r.outline, NodeOk 0 c) ∧
    flattenL r.outline = (dedupAdj none classified_headings).map
      (fun h => ("H" ++ toString (levelMap h.heading_level), h.text, h.page)) := by
  have hinv : stackInv [StackEntry.root document_title []] := by
    unfold stackInv
    exact ⟨⟨document_title, [], rfl⟩, fun c hc => absurd hc (List.not_mem_nil c)⟩
  obtain ⟨t', r', hb, hinv', hfl⟩ :=
    buildGo_spec classified_headings none (StackEntry.root document_title []) [] hinv
  obtain ⟨ti, cs, hcol, hok, hfl2⟩ := collapseAll_spec r' t' hinv'
  unfold build_hierarchy at hr
  rw [hb] at hr
  have hr' : collapseAll t' r' = some r := hr
  rw [hcol] at hr'
  injection hr' with hr''
  subst hr''
  refine ⟨hok, ?_⟩
  rw [hfl2, hfl]
  simp [sflat, entryProj, flattenL]

/-- C6: the builder skips exactly the headings whose text equals the
previous accepted heading's text (`build_hierarchy` is invariant under
`dedupAdj`), and two consecutive headings with identical text produce
exactly one node. -/
theorem C6_adjacent_dedup (document_title : String)
    (classified_headings : List ClassifiedHeading) :
    build_hierarchy document_title classified_headings =
      build_hierarchy document_title (dedupAdj none classified_headings) ∧
    ∀ g1 g2 : ClassifiedHeading, g1.text = g2.text →
      build_hierarchy document_title [g1, g2] =
        some ⟨document_title,
          [.mk ("H" ++ toString (levelMap g1.heading_level)) g1.text g1.page []]⟩ := by
  constructor
  · unfold build_hierarchy
    rw [buildGo_dedup]
  · intro g1 g2 htext
    have hpop : popLoop (levelMap g1.heading_level)
        (StackEntry.root document_title []) [] =
        some [StackEntry.root document_title []] := by
      unfold popLoop
      rw [if_neg]
      simp only [entryLevel]
      have := levelMap_pos g1.heading_level
      omega
    have hstep : buildGo none (StackEntry.root document_title []) [] [g1, g2] =
        some (StackEntry.node (levelMap g1.heading_level)
          ("H" ++ toString (levelMap g1.heading_level)) g1.text g1.page [],
          [StackEntry.root document_title []]) := by
      simp only [buildGo]
      rw [if_neg (fun hc => Option.noConfusion hc), hpop]
      simp only [htext, eq_self_iff_true, if_true]
    unfold build_hierarchy
    rw [hstep]
    rfl

theorem C5_witness :
    (∀ c ∈ (Hierarchy.mk "Doc"
        [.mk "H1" "Alpha" 0 [.mk "H2" "Beta" 1 []]]).outline, NodeOk 0 c) ∧
    flattenL (Hierarchy.mk "Doc"
        [.mk "H1" "Alpha" 0 [.mk "H2" "Beta" 1 []]]).outline =
      (dedupAdj none [c5HeadA, c5HeadB]).map
        (fun h => ("H" ++ toString (levelMap h.heading_level), h.text, h.page)) :=
  C5_hierarchy_nesting_and_sibling_order "Doc" [c5HeadA, c5HeadB]
    (Hierarchy.mk "Doc" [.mk "H1" "Alpha" 0 [.mk "H2" "Beta" 1 []]]) rfl

theorem C6_witness :
    build_hierarchy "D" [c6Head, c6Head] =
      build_hierarchy "D" (dedupAdj none [c6Head, c6Head]) ∧
    build_hierarchy "D" [c6Head, c6Head] =
      some ⟨"D", [.mk ("H" ++ toString (levelMap c6Head.heading_level))
        c6Head.text c6Head.page []]⟩ :=
  ⟨(C6_adjacent_dedup "D" [c6Head, c6Head]).1,
   (C6_adjacent_dedup "D" [c6Head, c6Head]).2 c6Head c6Head rfl⟩
